import Mathlib

/-!
A shallow embedding of `app.py`, a script that uploads an OCEL event log into a
Neo4j property graph, together with theorems about its batching behaviour, its
five upsert stages and its NEXT_EVENT sequence derivation.

Modelling conventions:

* ISO-8601 timestamps are modelled as integers (an instant in seconds); the
  Cypher conversion `datetime($timestamp)` is order-preserving and injective on
  them, and `duration.inSeconds(t1, t2)` equals `t2 - t1`.
* Every node or relationship collection of the store is a list of records with
  a MERGE key; MERGE matches on the key and otherwise creates, SET overwrites
  the non-key properties of the merged record.
* A Cypher query that MATCHes an Event by `ocel_id` writes nothing when no node
  matches.
-/

namespace OcelGraph

/-- Cypher MERGE over a keyed collection: replace the first element whose key
matches the incoming element (MERGE match), otherwise append it (MERGE create). -/
def upsert {α κ : Type} [DecidableEq κ] (key : α → κ) (x : α) : List α → List α
  | [] => [x]
  | y :: ys => if key y = key x then x :: ys else y :: upsert key x ys

/-- Apply a whole sequence of records to a keyed collection, in order. -/
def applyAll {α κ : Type} [DecidableEq κ] (key : α → κ) (rs : List α) (g : List α) : List α :=
  List.foldl (fun acc r => upsert key r acc) g rs

/-- The keys of a keyed collection, in collection order. -/
def keysOf {α κ : Type} (key : α → κ) (l : List α) : List κ := l.map key

/-- Proof device: the first element of the collection carrying key `k`. -/
def valueAt {α κ : Type} [DecidableEq κ] (key : α → κ) : List α → κ → Option α
  | [], _ => none
  | y :: ys, k => if key y = k then some y else valueAt key ys k

/-- Proof device: the last record of a record sequence carrying key `k`. -/
def lastRec {α κ : Type} [DecidableEq κ] (key : α → κ) : List α → κ → Option α
  | [], _ => none
  | r :: rs, k =>
      match lastRec key rs k with
      | some v => some v
      | none => if key r = k then some r else none

/-- Proof device: replace every element whose key matches `x` by `x`. -/
def mapReplace {α κ : Type} [DecidableEq κ] (key : α → κ) (x : α) (l : List α) : List α :=
  l.map (fun y => if key y = key x then x else y)

/-- Proof device: overwrite each element by the last record sharing its key. -/
def overwriteLast {α κ : Type} [DecidableEq κ] (key : α → κ) (rs : List α) (l : List α) :
    List α :=
  l.map (fun y => (lastRec key rs (key y)).getD y)

section KeyedLemmas

variable {α κ : Type} [DecidableEq κ] (key : α → κ)

theorem applyAll_nil (g : List α) : applyAll key [] g = g := rfl

theorem applyAll_cons (r : α) (rs g : List α) :
    applyAll key (r :: rs) g = applyAll key rs (upsert key r g) := rfl

theorem applyAll_append (rs ss g : List α) :
    applyAll key (rs ++ ss) g = applyAll key ss (applyAll key rs g) := by
  simp [applyAll, List.foldl_append]

theorem keysOf_nil : keysOf key ([] : List α) = [] := rfl

theorem keysOf_cons (y : α) (ys : List α) :
    keysOf key (y :: ys) = key y :: keysOf key ys := rfl

theorem keysOf_upsert (x : α) (l : List α) :
    keysOf key (upsert key x l) =
      if key x ∈ keysOf key l then keysOf key l else keysOf key l ++ [key x] := by
  induction l with
  | nil => simp [upsert, keysOf]
  | cons y ys ih =>
      by_cases hk : key y = key x
      · rw [show upsert key x (y :: ys) = x :: ys from by simp [upsert, hk]]
        have hmem : key x ∈ keysOf key (y :: ys) := by
          rw [keysOf_cons, hk]
          exact List.mem_cons_self _ _
        rw [if_pos hmem, keysOf_cons, keysOf_cons, hk]
      · have hne : ¬ key x = key y := fun h => hk h.symm
        rw [show upsert key x (y :: ys) = y :: upsert key x ys from by simp [upsert, hk]]
        rw [keysOf_cons, keysOf_cons, ih]
        by_cases hmem : key x ∈ keysOf key ys
        · rw [if_pos hmem, if_pos (by simp [keysOf_cons, hmem])]
        · rw [if_neg hmem, if_neg (by simp [keysOf_cons, hmem, hne])]
          simp

theorem mem_keysOf_upsert_self (x : α) (l : List α) :
    key x ∈ keysOf key (upsert key x l) := by
  rw [keysOf_upsert]
  by_cases h : key x ∈ keysOf key l <;> simp [h]

theorem nodup_keysOf_upsert (x : α) (l : List α) (h : (keysOf key l).Nodup) :
    (keysOf key (upsert key x l)).Nodup := by
  rw [keysOf_upsert]
  by_cases hm : key x ∈ keysOf key l
  · simpa [hm] using h
  · rw [if_neg hm]
    simp [List.nodup_append, h, hm]

theorem mem_keysOf_applyAll_mono (rs : List α) (g : List α) (k : κ)
    (h : k ∈ keysOf key g) : k ∈ keysOf key (applyAll key rs g) := by
  induction rs generalizing g with
  | nil => simpa [applyAll_nil] using h
  | cons r rs ih =>
      rw [applyAll_cons]
      apply ih
      rw [keysOf_upsert]
      by_cases hm : key r ∈ keysOf key g <;> simp [hm, h]

theorem mem_keysOf_applyAll_of_rec (rs : List α) (g : List α) (r : α)
    (h : r ∈ rs) : key r ∈ keysOf key (applyAll key rs g) := by
  induction rs generalizing g with
  | nil => cases h
  | cons s rs ih =>
      rw [applyAll_cons]
      rcases List.mem_cons.1 h with h | h
      · subst h
        exact mem_keysOf_applyAll_mono key rs _ _ (mem_keysOf_upsert_self key r g)
      · exact ih _ h

theorem nodup_keysOf_applyAll (rs : List α) (g : List α) (h : (keysOf key g).Nodup) :
    (keysOf key (applyAll key rs g)).Nodup := by
  induction rs generalizing g with
  | nil => simpa [applyAll_nil] using h
  | cons r rs ih =>
      rw [applyAll_cons]
      exact ih _ (nodup_keysOf_upsert key r g h)

theorem keysOf_mapReplace (x : α) (l : List α) :
    keysOf key (mapReplace key x l) = keysOf key l := by
  induction l with
  | nil => rfl
  | cons y ys ih =>
      by_cases hk : key y = key x
      · simp [mapReplace, keysOf_cons, hk] at ih ⊢
        exact ih
      · simp [mapReplace, keysOf_cons, hk] at ih ⊢
        exact ih

theorem mapReplace_eq_self (x : α) (l : List α) (h : ∀ y ∈ l, key y ≠ key x) :
    mapReplace key x l = l := by
  induction l with
  | nil => rfl
  | cons y ys ih =>
      have hy : key y ≠ key x := h y (List.mem_cons_self _ _)
      simp only [mapReplace, List.map_cons, if_neg hy]
      have := ih (fun z hz => h z (List.mem_cons_of_mem _ hz))
      simp only [mapReplace] at this
      rw [this]

theorem upsert_eq_mapReplace (x : α) (l : List α) (hmem : key x ∈ keysOf key l)
    (hnd : (keysOf key l).Nodup) : upsert key x l = mapReplace key x l := by
  induction l with
  | nil => cases hmem
  | cons y ys ih =>
      by_cases hk : key y = key x
      · have hnotin : key y ∉ keysOf key ys := by
          rw [keysOf_cons] at hnd
          exact (List.nodup_cons.1 hnd).1
        simp only [upsert, if_pos hk, mapReplace, List.map_cons, if_pos hk]
        have hself : mapReplace key x ys = ys := mapReplace_eq_self key x ys
          (fun z hz hkey => by
            apply hnotin
            rw [hk, ← hkey]
            exact List.mem_map_of_mem _ hz)
        simp only [mapReplace] at hself
        rw [hself]
      · have hmem' : key x ∈ keysOf key ys := by
          rcases List.mem_cons.1 (by simpa [keysOf_cons] using hmem) with h | h
          · exact absurd h.symm hk
          · exact h
        have hnd' : (keysOf key ys).Nodup := by
          rw [keysOf_cons] at hnd
          exact (List.nodup_cons.1 hnd).2
        simp only [upsert, if_neg hk, mapReplace, List.map_cons, if_neg hk]
        rw [ih hmem' hnd']
        rfl

theorem lastRec_nil (k : κ) : lastRec key ([] : List α) k = none := rfl

theorem lastRec_cons (r : α) (rs : List α) (k : κ) :
    lastRec key (r :: rs) k =
      match lastRec key rs k with
      | some v => some v
      | none => if key r = k then some r else none := rfl

theorem lastRec_none_iff (rs : List α) (k : κ) :
    lastRec key rs k = none ↔ ∀ r ∈ rs, key r ≠ k := by
  induction rs with
  | nil => simp [lastRec_nil]
  | cons r rs ih =>
      rw [lastRec_cons]
      constructor
      · intro h s hs
        rcases List.mem_cons.1 hs with hs | hs
        · subst hs
          intro hk
          rcases hrec : lastRec key rs k with _ | v
          · rw [hrec] at h
            simp [hk] at h
          · rw [hrec] at h
            cases h
        · intro hk
          rcases hrec : lastRec key rs k with _ | v
          · exact (ih.1 hrec) s hs hk
          · rw [hrec] at h
            cases h
      · intro h
        have h1 : lastRec key rs k = none := ih.2 (fun s hs => h s (List.mem_cons_of_mem _ hs))
        rw [h1]
        simp [h r (List.mem_cons_self _ _)]

theorem overwriteLast_nil_rec (l : List α) : overwriteLast key [] l = l := by
  simp [overwriteLast, lastRec_nil]

theorem overwriteLast_cons (r : α) (rs : List α) (l : List α) :
    overwriteLast key rs (mapReplace key r l) = overwriteLast key (r :: rs) l := by
  simp only [overwriteLast, mapReplace, List.map_map]
  apply List.map_congr_left
  intro y _
  simp only [Function.comp_apply]
  by_cases hk : key y = key r
  · rw [if_pos hk, hk, lastRec_cons]
    rcases hrec : lastRec key rs (key r) with _ | v
    · simp
    · simp
  · rw [if_neg hk, lastRec_cons]
    rcases hrec : lastRec key rs (key y) with _ | v
    · have hne : ¬ key r = key y := fun h => hk h.symm
      simp [hne]
    · simp

theorem applyAll_eq_overwriteLast (rs : List α) (l : List α)
    (hkeys : ∀ r ∈ rs, key r ∈ keysOf key l) (hnd : (keysOf key l).Nodup) :
    applyAll key rs l = overwriteLast key rs l := by
  induction rs generalizing l with
  | nil => rw [applyAll_nil, overwriteLast_nil_rec]
  | cons r rs ih =>
      rw [applyAll_cons]
      rw [upsert_eq_mapReplace key r l (hkeys r (List.mem_cons_self _ _)) hnd]
      rw [ih (mapReplace key r l)
        (fun s hs => by
          rw [keysOf_mapReplace]
          exact hkeys s (List.mem_cons_of_mem _ hs))
        (by rw [keysOf_mapReplace]; exact hnd)]
      exact overwriteLast_cons key r rs l

theorem valueAt_upsert_self (x : α) (l : List α) :
    valueAt key (upsert key x l) (key x) = some x := by
  induction l with
  | nil => simp [upsert, valueAt]
  | cons y ys ih =>
      by_cases hk : key y = key x
      · simp [upsert, hk, valueAt]
      · simp [upsert, hk, valueAt, ih]

theorem valueAt_upsert_other (x : α) (l : List α) (k : κ) (hk : k ≠ key x) :
    valueAt key (upsert key x l) k = valueAt key l k := by
  have hxk : ¬ key x = k := fun h => hk h.symm
  induction l with
  | nil => simp [upsert, valueAt, hxk]
  | cons y ys ih =>
      by_cases hy : key y = key x
      · have hyk : ¬ key y = k := by
          rw [hy]
          exact hxk
        simp [upsert, hy, valueAt, hxk, hyk]
      · by_cases hyk : key y = k
        · rw [show upsert key x (y :: ys) = y :: upsert key x ys from by simp [upsert, hy]]
          simp [valueAt, hyk]
        · rw [show upsert key x (y :: ys) = y :: upsert key x ys from by simp [upsert, hy]]
          simp [valueAt, hyk, ih]

theorem valueAt_applyAll_none (rs : List α) (g : List α) (k : κ)
    (h : lastRec key rs k = none) :
    valueAt key (applyAll key rs g) k = valueAt key g k := by
  induction rs generalizing g with
  | nil => rw [applyAll_nil]
  | cons r rs ih =>
      have hall := (lastRec_none_iff key (r :: rs) k).1 h
      have hrs : lastRec key rs k = none :=
        (lastRec_none_iff key rs k).2 (fun s hs => hall s (List.mem_cons_of_mem _ hs))
      rw [applyAll_cons, ih _ hrs]
      exact valueAt_upsert_other key r g k
        (fun hk => hall r (List.mem_cons_self _ _) hk.symm)

theorem valueAt_applyAll_last (rs : List α) (g : List α) (k : κ) (v : α)
    (h : lastRec key rs k = some v) :
    valueAt key (applyAll key rs g) k = some v := by
  induction rs generalizing g with
  | nil => cases h
  | cons r rs ih =>
      rw [applyAll_cons]
      rcases hrec : lastRec key rs k with _ | w
      · rw [lastRec_cons, hrec] at h
        by_cases hk : key r = k
        · rw [if_pos hk] at h
          cases h
          rw [valueAt_applyAll_none key rs _ k hrec]
          rw [← hk]
          exact valueAt_upsert_self key v g
        · rw [if_neg hk] at h
          cases h
      · rw [lastRec_cons, hrec] at h
        cases h
        exact ih _ hrec

theorem valueAt_of_mem_nodup (y : α) (l : List α) (hy : y ∈ l)
    (hnd : (keysOf key l).Nodup) : valueAt key l (key y) = some y := by
  induction l with
  | nil => cases hy
  | cons z zs ih =>
      rcases List.mem_cons.1 hy with h | h
      · subst h
        simp [valueAt]
      · have hz : ¬ key z = key y := by
          intro hk
          rw [keysOf_cons] at hnd
          exact (List.nodup_cons.1 hnd).1 (hk ▸ List.mem_map_of_mem _ h)
        simp only [valueAt, if_neg hz]
        exact ih h (by rw [keysOf_cons] at hnd; exact (List.nodup_cons.1 hnd).2)

theorem map_self_of_forall {β : Type} (f : β → β) (l : List β) (h : ∀ x ∈ l, f x = x) :
    l.map f = l := by
  induction l with
  | nil => rfl
  | cons y ys ih =>
      rw [List.map_cons, h y (List.mem_cons_self _ _),
        ih (fun z hz => h z (List.mem_cons_of_mem _ hz))]

/-- Replaying the very same record sequence over the collection it produced
changes nothing: the generic idempotence of MERGE + SET upserts. -/
theorem applyAll_idem (rs : List α) (l : List α) (hnd : (keysOf key l).Nodup) :
    applyAll key rs (applyAll key rs l) = applyAll key rs l := by
  have hndL : (keysOf key (applyAll key rs l)).Nodup := nodup_keysOf_applyAll key rs l hnd
  have hkeys : ∀ r ∈ rs, key r ∈ keysOf key (applyAll key rs l) :=
    fun r hr => mem_keysOf_applyAll_of_rec key rs l r hr
  rw [applyAll_eq_overwriteLast key rs _ hkeys hndL]
  unfold overwriteLast
  apply map_self_of_forall
  intro y hy
  rcases hrec : lastRec key rs (key y) with _ | v
  · simp
  · have h1 : valueAt key (applyAll key rs l) (key y) = some v :=
      valueAt_applyAll_last key rs l (key y) v hrec
    have h2 : valueAt key (applyAll key rs l) (key y) = some y :=
      valueAt_of_mem_nodup key y _ hy hndL
    rw [h1] at h2
    cases h2
    simp

theorem applyAll_cons_of_fresh (rs : List α) (x : α) (g : List α)
    (h : ∀ r ∈ rs, key r ≠ key x) :
    applyAll key rs (x :: g) = x :: applyAll key rs g := by
  induction rs generalizing g with
  | nil => rw [applyAll_nil, applyAll_nil]
  | cons r rs ih =>
      rw [applyAll_cons, applyAll_cons]
      have hx : ¬ key x = key r := fun hk => h r (List.mem_cons_self _ _) hk.symm
      rw [show upsert key r (x :: g) = x :: upsert key r g from by simp [upsert, hx]]
      exact ih _ (fun s hs => h s (List.mem_cons_of_mem _ hs))

/-- A record sequence with pairwise distinct keys applied to the empty
collection is just itself. -/
theorem applyAll_nil_of_nodup (rs : List α) (hnd : (keysOf key rs).Nodup) :
    applyAll key rs [] = rs := by
  induction rs with
  | nil => rfl
  | cons r rs ih =>
      rw [applyAll_cons]
      rw [show upsert key r ([] : List α) = [r] from rfl]
      rw [keysOf_cons, List.nodup_cons] at hnd
      rw [applyAll_cons_of_fresh key rs r []
        (fun s hs hk => hnd.1 (hk ▸ List.mem_map_of_mem _ hs))]
      rw [ih hnd.2]

theorem mem_of_mem_upsert (x a : α) (l : List α) (h : a ∈ upsert key x l) :
    a ∈ l ∨ a = x := by
  induction l with
  | nil => simpa [upsert] using h
  | cons y ys ih =>
      by_cases hk : key y = key x
      · simp only [upsert, if_pos hk] at h
        rcases List.mem_cons.1 h with h | h
        · exact Or.inr h
        · exact Or.inl (List.mem_cons_of_mem _ h)
      · simp only [upsert, if_neg hk] at h
        rcases List.mem_cons.1 h with h | h
        · exact Or.inl (h ▸ List.mem_cons_self _ _)
        · rcases ih h with h | h
          · exact Or.inl (List.mem_cons_of_mem _ h)
          · exact Or.inr h

theorem mem_of_mem_applyAll (rs : List α) (g : List α) (a : α)
    (h : a ∈ applyAll key rs g) : a ∈ g ∨ a ∈ rs := by
  induction rs generalizing g with
  | nil => exact Or.inl h
  | cons r rs ih =>
      rw [applyAll_cons] at h
      rcases ih _ h with h | h
      · rcases mem_of_mem_upsert key r a g h with h | h
        · exact Or.inl h
        · exact Or.inr (h ▸ List.mem_cons_self _ _)
      · exact Or.inr (List.mem_cons_of_mem _ h)

end KeyedLemmas

section IdKeyed

variable {α : Type} [DecidableEq α]

theorem mem_upsert_id (x a : α) (l : List α) (h : a ∈ l ∨ a = x) :
    a ∈ upsert (fun z => z) x l := by
  induction l with
  | nil =>
      rcases h with h | h
      · cases h
      · simp [upsert, h]
  | cons y ys ih =>
      by_cases hk : y = x
      · simp only [upsert, if_pos hk]
        rcases h with h | h
        · rcases List.mem_cons.1 h with h | h
          · exact h ▸ hk ▸ List.mem_cons_self _ _
          · exact List.mem_cons_of_mem _ h
        · exact h ▸ List.mem_cons_self _ _
      · simp only [upsert, if_neg hk]
        rcases h with h | h
        · rcases List.mem_cons.1 h with h | h
          · exact h ▸ List.mem_cons_self _ _
          · exact List.mem_cons_of_mem _ (ih (Or.inl h))
        · exact List.mem_cons_of_mem _ (ih (Or.inr h))

theorem mem_applyAll_id (rs : List α) (g : List α) (a : α) (h : a ∈ g ∨ a ∈ rs) :
    a ∈ applyAll (fun z => z) rs g := by
  induction rs generalizing g with
  | nil =>
      rcases h with h | h
      · exact h
      · cases h
  | cons r rs ih =>
      rw [applyAll_cons]
      rcases h with h | h
      · exact ih _ (Or.inl (mem_upsert_id r a g (Or.inl h)))
      · rcases List.mem_cons.1 h with h | h
        · exact ih _ (Or.inl (mem_upsert_id r a g (Or.inr h)))
        · exact ih _ (Or.inr h)

end IdKeyed

/-! ### The input event log (the parsed JSON document `json_data`) -/

/-- One entry of an event's `ocel:objects` list. -/
structure ObjRef where
  id : String
  type : String
deriving DecidableEq

/-- One entry of `json_data['ocel:events']`.  `ocel_timestamp` is the value at
key `ocel:timestamp` (`none` when the key is absent: step 2 reads it with
`event['ocel:timestamp']`, a KeyError when absent, while step 4 reads it with
`event.get('ocel:timestamp', datetime.utcnow().isoformat())`).  `attr_case_id`
and `attr_resource` are the optional values at keys `case_id` and `resource`
of `event['ocel:attributes']`. -/
structure InputEvent where
  ocel_id : String
  ocel_timestamp : Option Int
  ocel_activity : String
  attr_case_id : Option String
  attr_resource : Option String
  ocel_objects : List ObjRef
deriving DecidableEq

/-- The parameter dict appended by step 2 (lines 76-80). -/
structure EventRecord where
  id : String
  timestamp : Int
  activity : String
deriving DecidableEq

/-- Building one step-2 record: reading `event['ocel:timestamp']` raises
KeyError when the key is absent, aborting the run. -/
def eventRecord (e : InputEvent) : Except String EventRecord :=
  match e.ocel_timestamp with
  | some t => Except.ok { id := e.ocel_id, timestamp := t, activity := e.ocel_activity }
  | none => Except.error "KeyError: ocel:timestamp"

/-- The step-2 loop: records are built in input order; the first event missing
its timestamp raises and aborts the stage. -/
def extractEventRecords : List InputEvent → Except String (List EventRecord)
  | [] => Except.ok []
  | e :: es => do
      let r ← eventRecord e
      let rs ← extractEventRecords es
      Except.ok (r :: rs)

/-! ### The property graph built by the store -/

/-- An `Event` node: MERGE key `ocel_id`, SET properties `timestamp` and
`activity_name` (event_query, lines 68-72). -/
structure EventNode where
  ocel_id : String
  timestamp : Int
  activity_name : String
deriving DecidableEq

/-- A `NEXT_EVENT` relationship: MERGE key (src, dst), SET property
`time_difference` (sequence_query, lines 176-186). -/
structure NextEdge where
  src : String
  dst : String
  time_difference : Int
deriving DecidableEq

/-- The store contents: one keyed list per node label and relationship type.
`activities` is keyed by the full pair (name, timestamp), `objects` by
(id, type); `containsEvent` pairs are (case_id, event ocel_id), `ofType`
triples are (event ocel_id, activity name, activity timestamp), `performedBy`
and `involves` pairs lead with the event ocel_id. -/
structure Graph where
  events : List EventNode
  cases : List String
  activities : List (String × Int)
  resources : List String
  objects : List ObjRef
  containsEvent : List (String × String)
  ofType : List (String × String × Int)
  performedBy : List (String × String)
  involves : List (String × ObjRef)
  nextEvent : List NextEdge
deriving DecidableEq

def emptyGraph : Graph := ⟨[], [], [], [], [], [], [], [], [], []⟩

def nodeOfEventRecord (r : EventRecord) : EventNode :=
  { ocel_id := r.id, timestamp := r.timestamp, activity_name := r.activity }

/-- event_query (lines 68-72): `MERGE (e:Event {ocel_id: $id}) SET
e.timestamp = datetime($timestamp), e.activity_name = $activity`. -/
def applyEventRecord (g : Graph) (r : EventRecord) : Graph :=
  { g with events := upsert EventNode.ocel_id (nodeOfEventRecord r) g.events }

/-- Whether `MATCH (e:Event {ocel_id: i})` produces a row. -/
def eventMatches (g : Graph) (i : String) : Bool :=
  g.events.any (fun e => e.ocel_id == i)

/-- case_query (lines 89-93): MATCH the event, MERGE the Case node, MERGE the
CONTAINS_EVENT edge; no matching event, no write.  The record is (id, case_id). -/
def applyCaseRecord (g : Graph) (r : String × String) : Graph :=
  if eventMatches g r.1 then
    { g with cases := upsert (fun c => c) r.2 g.cases,
             containsEvent := upsert (fun p => p) (r.2, r.1) g.containsEvent }
  else g

/-- The records appended by the step-3 loop (lines 96-101): events whose
attributes lack `case_id` are skipped. -/
def caseRecords (log : List InputEvent) : List (String × String) :=
  log.filterMap (fun e => e.attr_case_id.map (fun c => (e.ocel_id, c)))

/-- The parameter dict appended by step 4 (lines 118-122). -/
structure ActivityRecord where
  id : String
  activity : String
  timestamp : Int
deriving DecidableEq

/-- Step 4 appends a record for every event; a missing timestamp falls back to
`datetime.utcnow().isoformat()`, modelled by the parameter `now`. -/
def activityRecord (now : Int) (e : InputEvent) : ActivityRecord :=
  { id := e.ocel_id, activity := e.ocel_activity, timestamp := e.ocel_timestamp.getD now }

/-- activity_query (lines 110-114): MATCH the event, MERGE the Activity node
keyed by (name, timestamp), MERGE the OF_TYPE edge. -/
def applyActivityRecord (g : Graph) (r : ActivityRecord) : Graph :=
  if eventMatches g r.id then
    { g with activities := upsert (fun a => a) (r.activity, r.timestamp) g.activities,
             ofType := upsert (fun p => p) (r.id, r.activity, r.timestamp) g.ofType }
  else g

/-- resource_query (lines 132-136): MATCH the event, MERGE the Resource node
keyed by name, MERGE the PERFORMED_BY edge.  The record is (id, resource). -/
def applyResourceRecord (g : Graph) (r : String × String) : Graph :=
  if eventMatches g r.1 then
    { g with resources := upsert (fun s => s) r.2 g.resources,
             performedBy := upsert (fun p => p) (r.1, r.2) g.performedBy }
  else g

/-- The records appended by the step-5 loop (lines 139-144): events whose
attributes lack `resource` are skipped. -/
def resourceRecords (log : List InputEvent) : List (String × String) :=
  log.filterMap (fun e => e.attr_resource.map (fun r => (e.ocel_id, r)))

/-- object_query (lines 153-157): MATCH the event, MERGE the Object node keyed
by (id, type), MERGE the INVOLVES edge.  The record is (event id, object ref). -/
def applyObjectRecord (g : Graph) (r : String × ObjRef) : Graph :=
  if eventMatches g r.1 then
    { g with objects := upsert (fun o => o) r.2 g.objects,
             involves := upsert (fun p => p) (r.1, r.2) g.involves }
  else g

/-- The records appended by the step-6 loop (lines 160-166): one per entry of
`event.get('ocel:objects', [])`. -/
def objectRecords (log : List InputEvent) : List (String × ObjRef) :=
  log.flatMap (fun e => e.ocel_objects.map (fun o => (e.ocel_id, o)))

/-- Steps 2-6 of the script: the net effect of the five upsert stages on the
store (step 1 only drops and recreates constraints/indexes and writes no data). -/
def runStages (now : Int) (log : List InputEvent) (g0 : Graph) : Except String Graph := do
  let ers ← extractEventRecords log
  let g2 := List.foldl applyEventRecord g0 ers
  let g3 := List.foldl applyCaseRecord g2 (caseRecords log)
  let g4 := List.foldl applyActivityRecord g3 (log.map (activityRecord now))
  let g5 := List.foldl applyResourceRecord g4 (resourceRecords log)
  let g6 := List.foldl applyObjectRecord g5 (objectRecords log)
  Except.ok g6

/-! ### The sequence derivation (step 7, sequence_query lines 176-186) -/

/-- The events matched for case `c` by
`MATCH (e1:Event)-[:CONTAINS_EVENT]-(c:Case)`. -/
def caseEvents (g : Graph) (c : String) : List EventNode :=
  g.events.filter (fun e => decide ((c, e.ocel_id) ∈ g.containsEvent))

/-- The pairs (events[i], events[i+1]) for i in
`UNWIND range(0, size(events)-2)`. -/
def adjacentPairs {α : Type} : List α → List (α × α)
  | [] => []
  | [_] => []
  | a :: b :: rest => (a, b) :: adjacentPairs (b :: rest)

/-- The NEXT_EVENT edges derived from one case's collected event list: keep
adjacent pairs with `e1.timestamp < e2.timestamp AND e1 <> e2` and set
`time_difference = duration.inSeconds(e1.timestamp, e2.timestamp)`. -/
def sequenceEdges (events : List EventNode) : List NextEdge :=
  (adjacentPairs events).filterMap (fun p =>
    if p.1.timestamp < p.2.timestamp ∧ p.1 ≠ p.2 then
      some { src := p.1.ocel_id, dst := p.2.ocel_id,
             time_difference := p.2.timestamp - p.1.timestamp }
    else none)

def nextKey (n : NextEdge) : String × String := (n.src, n.dst)

/-- The whole sequence query: per case row (the query groups rows with
`WITH c, collect(e1) AS events` after `ORDER BY c.case_id, e1.timestamp`),
MERGE the derived edges.  `ord c` is the timestamp-sorted row order the store
produced for case `c`. -/
def applySequence (g : Graph) (ord : String → List EventNode) : Graph :=
  let ne := List.foldl (fun acc c => applyAll nextKey (sequenceEdges (ord c)) acc)
    g.nextEvent g.cases
  { g with nextEvent := ne }

/-- `ord` is a row order the store can produce: per case a permutation of the
case's matched events, sorted by timestamp ascending.  `ORDER BY c.case_id,
e1.timestamp` has no further sort key, so equal timestamps may come in any
order. -/
def ValidOrder (g : Graph) (ord : String → List EventNode) : Prop :=
  ∀ c ∈ g.cases, List.Perm (ord c) (caseEvents g c) ∧
    List.Pairwise (fun a b => a.timestamp ≤ b.timestamp) (ord c)

/-- The graph semantics of the whole script in the order the spec intends:
steps 1-6 followed by the sequence derivation of step 7. -/
def runPipeline (now : Int) (ord : String → List EventNode) (log : List InputEvent)
    (g0 : Graph) : Except String Graph := do
  let g ← runStages now log g0
  Except.ok (applySequence g ord)

/-! ### The connection lifecycle of the script (claim C1)

`with GraphDatabase.driver(URI, auth=AUTH) as driver:` opens the driver at
line 45; its suite spans lines 46-171 (steps 1-6), and leaving the block
closes the driver.  Step 7 (lines 173-189) is indented at module level and
therefore executes after the block: `driver.session()` at line 188 is called
on the already closed driver, which raises. -/

inductive ScriptStep
  | openDriver
  | schemaAndUpserts
  | closeDriver
  | sequenceSession
deriving DecidableEq

structure ScriptState where
  driverOpen : Bool
  raisedError : Bool
deriving DecidableEq

def scriptStep (s : ScriptState) (st : ScriptStep) : ScriptState :=
  if s.raisedError then s
  else
    match st with
    | ScriptStep.openDriver => { s with driverOpen := true }
    | ScriptStep.schemaAndUpserts => s
    | ScriptStep.closeDriver => { s with driverOpen := false }
    | ScriptStep.sequenceSession =>
        if s.driverOpen then s else { s with raisedError := true }

/-- The statement order of app.py: step 7 sits after the `with` block. -/
def appScriptOrder : List ScriptStep :=
  [ScriptStep.openDriver, ScriptStep.schemaAndUpserts, ScriptStep.closeDriver,
   ScriptStep.sequenceSession]

/-- The statement order the spec describes: the sequence step acquires its
session while the connection is still open. -/
def intendedScriptOrder : List ScriptStep :=
  [ScriptStep.openDriver, ScriptStep.schemaAndUpserts, ScriptStep.sequenceSession,
   ScriptStep.closeDriver]

def runScript (order : List ScriptStep) : ScriptState :=
  List.foldl scriptStep ⟨false, false⟩ order

/-- The run reaches the SUCCESS terminal state iff no step raised. -/
def scriptSucceeds (order : List ScriptStep) : Bool :=
  !(runScript order).raisedError

/-! ### Batching (execute_batch, lines 30-33, and the per-stage flush loops) -/

/-- execute_batch: the write transactions it performs — none for an empty
batch (`if batch:`), otherwise one transaction running the whole batch. -/
def execute_batch {ρ : Type} (batch : List ρ) : List (List ρ) :=
  if batch.isEmpty then [] else [batch]

/-- One iteration of the flush pattern shared by steps 2-6: append the
iteration's records to the buffer, then flush the buffer as one group once
`len(batch) >= BATCH_SIZE`. -/
def flushStep {ρ : Type} (B : Nat) (s : List (List ρ) × List ρ) (recs : List ρ) :
    List (List ρ) × List ρ :=
  let buf := s.2 ++ recs
  if B ≤ buf.length then (s.1 ++ [buf], []) else (s.1, buf)

/-- The whole per-stage flush loop: flushed groups and the remaining buffer. -/
def flushAccum {ρ : Type} (B : Nat) (contribs : List (List ρ)) :
    List (List ρ) × List ρ :=
  List.foldl (flushStep B) ([], []) contribs

/-- All write groups a stage hands to the store: the groups flushed inside the
loop plus the trailing `execute_batch` of the remaining buffer. -/
def stageBatches {ρ : Type} (B : Nat) (contribs : List (List ρ)) : List (List ρ) :=
  (flushAccum B contribs).1 ++ execute_batch (flushAccum B contribs).2

/-- Step 2 appends exactly one record per event before its flush check. -/
def eventContribs (ers : List EventRecord) : List (List EventRecord) :=
  ers.map (fun r => [r])

/-- Step 3 appends one record when `case_id` is present, none otherwise. -/
def caseContribs (log : List InputEvent) : List (List (String × String)) :=
  log.map (fun e => (e.attr_case_id.map (fun c => (e.ocel_id, c))).toList)

/-- Step 4 appends exactly one record per event. -/
def activityContribs (now : Int) (log : List InputEvent) : List (List ActivityRecord) :=
  log.map (fun e => [activityRecord now e])

/-- Step 5 appends one record when `resource` is present, none otherwise. -/
def resourceContribs (log : List InputEvent) : List (List (String × String)) :=
  log.map (fun e => (e.attr_resource.map (fun r => (e.ocel_id, r))).toList)

/-- Step 6 appends one record per entry of the event's object list and only
then checks the batch size (lines 160-167). -/
def objectContribs (log : List InputEvent) : List (List (String × ObjRef)) :=
  log.map (fun e => e.ocel_objects.map (fun o => (e.ocel_id, o)))

/-! ### Decomposition of the stage folds into keyed `applyAll` applications -/

theorem events_applyCaseRecord (g : Graph) (r : String × String) :
    (applyCaseRecord g r).events = g.events := by
  unfold applyCaseRecord
  split <;> rfl

theorem events_applyActivityRecord (g : Graph) (r : ActivityRecord) :
    (applyActivityRecord g r).events = g.events := by
  unfold applyActivityRecord
  split <;> rfl

theorem events_applyResourceRecord (g : Graph) (r : String × String) :
    (applyResourceRecord g r).events = g.events := by
  unfold applyResourceRecord
  split <;> rfl

theorem events_applyObjectRecord (g : Graph) (r : String × ObjRef) :
    (applyObjectRecord g r).events = g.events := by
  unfold applyObjectRecord
  split <;> rfl

theorem foldl_applyEventRecord (rs : List EventRecord) (g : Graph) :
    List.foldl applyEventRecord g rs =
      { g with events := applyAll EventNode.ocel_id (rs.map nodeOfEventRecord) g.events } := by
  induction rs generalizing g with
  | nil => rfl
  | cons r rs ih =>
      rw [List.foldl_cons, ih, List.map_cons, applyAll_cons]
      rfl

theorem foldl_applyCaseRecord (rs : List (String × String)) (g : Graph) :
    List.foldl applyCaseRecord g rs =
      { g with
        cases := applyAll (fun c => c)
          ((rs.filter (fun r => eventMatches g r.1)).map Prod.snd) g.cases,
        containsEvent := applyAll (fun p => p)
          ((rs.filter (fun r => eventMatches g r.1)).map (fun r => (r.2, r.1)))
          g.containsEvent } := by
  induction rs generalizing g with
  | nil => rfl
  | cons r rs ih =>
      rw [List.foldl_cons, ih]
      have hfil : rs.filter (fun x => eventMatches (applyCaseRecord g r) x.1) =
          rs.filter (fun x => eventMatches g x.1) := by
        apply List.filter_congr
        intro x _
        unfold eventMatches
        rw [events_applyCaseRecord]
      rw [hfil]
      by_cases hm : eventMatches g r.1
      · rw [show (r :: rs).filter (fun x => eventMatches g x.1) =
            r :: rs.filter (fun x => eventMatches g x.1) from by
          rw [List.filter_cons, if_pos (by simpa using hm)]]
        rw [List.map_cons, List.map_cons, applyAll_cons, applyAll_cons]
        rw [show applyCaseRecord g r =
            { g with cases := upsert (fun c => c) r.2 g.cases,
                     containsEvent := upsert (fun p => p) (r.2, r.1) g.containsEvent } from by
          unfold applyCaseRecord
          rw [if_pos hm]]
      · rw [show (r :: rs).filter (fun x => eventMatches g x.1) =
            rs.filter (fun x => eventMatches g x.1) from by
          rw [List.filter_cons, if_neg (by simpa using hm)]]
        rw [show applyCaseRecord g r = g from by
          unfold applyCaseRecord
          rw [if_neg hm]]

theorem foldl_applyActivityRecord (rs : List ActivityRecord) (g : Graph) :
    List.foldl applyActivityRecord g rs =
      { g with
        activities := applyAll (fun a => a)
          ((rs.filter (fun r => eventMatches g r.id)).map
            (fun r => (r.activity, r.timestamp))) g.activities,
        ofType := applyAll (fun p => p)
          ((rs.filter (fun r => eventMatches g r.id)).map
            (fun r => (r.id, r.activity, r.timestamp))) g.ofType } := by
  induction rs generalizing g with
  | nil => rfl
  | cons r rs ih =>
      rw [List.foldl_cons, ih]
      have hfil : rs.filter (fun x => eventMatches (applyActivityRecord g r) x.id) =
          rs.filter (fun x => eventMatches g x.id) := by
        apply List.filter_congr
        intro x _
        unfold eventMatches
        rw [events_applyActivityRecord]
      rw [hfil]
      by_cases hm : eventMatches g r.id
      · rw [show (r :: rs).filter (fun x => eventMatches g x.id) =
            r :: rs.filter (fun x => eventMatches g x.id) from by
          rw [List.filter_cons, if_pos (by simpa using hm)]]
        rw [List.map_cons, List.map_cons, applyAll_cons, applyAll_cons]
        rw [show applyActivityRecord g r =
            { g with activities := upsert (fun a => a) (r.activity, r.timestamp) g.activities,
                     ofType := upsert (fun p => p) (r.id, r.activity, r.timestamp) g.ofType } from by
          unfold applyActivityRecord
          rw [if_pos hm]]
      · rw [show (r :: rs).filter (fun x => eventMatches g x.id) =
            rs.filter (fun x => eventMatches g x.id) from by
          rw [List.filter_cons, if_neg (by simpa using hm)]]
        rw [show applyActivityRecord g r = g from by
          unfold applyActivityRecord
          rw [if_neg hm]]

theorem foldl_applyResourceRecord (rs : List (String × String)) (g : Graph) :
    List.foldl applyResourceRecord g rs =
      { g with
        resources := applyAll (fun s => s)
          ((rs.filter (fun r => eventMatches g r.1)).map Prod.snd) g.resources,
        performedBy := applyAll (fun p => p)
          ((rs.filter (fun r => eventMatches g r.1)).map (fun r => (r.1, r.2)))
          g.performedBy } := by
  induction rs generalizing g with
  | nil => rfl
  | cons r rs ih =>
      rw [List.foldl_cons, ih]
      have hfil : rs.filter (fun x => eventMatches (applyResourceRecord g r) x.1) =
          rs.filter (fun x => eventMatches g x.1) := by
        apply List.filter_congr
        intro x _
        unfold eventMatches
        rw [events_applyResourceRecord]
      rw [hfil]
      by_cases hm : eventMatches g r.1
      · rw [show (r :: rs).filter (fun x => eventMatches g x.1) =
            r :: rs.filter (fun x => eventMatches g x.1) from by
          rw [List.filter_cons, if_pos (by simpa using hm)]]
        rw [List.map_cons, List.map_cons, applyAll_cons, applyAll_cons]
        rw [show applyResourceRecord g r =
            { g with resources := upsert (fun s => s) r.2 g.resources,
                     performedBy := upsert (fun p => p) (r.1, r.2) g.performedBy } from by
          unfold applyResourceRecord
          rw [if_pos hm]]
      · rw [show (r :: rs).filter (fun x => eventMatches g x.1) =
            rs.filter (fun x => eventMatches g x.1) from by
          rw [List.filter_cons, if_neg (by simpa using hm)]]
        rw [show applyResourceRecord g r = g from by
          unfold applyResourceRecord
          rw [if_neg hm]]

theorem foldl_applyObjectRecord (rs : List (String × ObjRef)) (g : Graph) :
    List.foldl applyObjectRecord g rs =
      { g with
        objects := applyAll (fun o => o)
          ((rs.filter (fun r => eventMatches g r.1)).map Prod.snd) g.objects,
        involves := applyAll (fun p => p)
          ((rs.filter (fun r => eventMatches g r.1)).map (fun r => (r.1, r.2)))
          g.involves } := by
  induction rs generalizing g with
  | nil => rfl
  | cons r rs ih =>
      rw [List.foldl_cons, ih]
      have hfil : rs.filter (fun x => eventMatches (applyObjectRecord g r) x.1) =
          rs.filter (fun x => eventMatches g x.1) := by
        apply List.filter_congr
        intro x _
        unfold eventMatches
        rw [events_applyObjectRecord]
      rw [hfil]
      by_cases hm : eventMatches g r.1
      · rw [show (r :: rs).filter (fun x => eventMatches g x.1) =
            r :: rs.filter (fun x => eventMatches g x.1) from by
          rw [List.filter_cons, if_pos (by simpa using hm)]]
        rw [List.map_cons, List.map_cons, applyAll_cons, applyAll_cons]
        rw [show applyObjectRecord g r =
            { g with objects := upsert (fun o => o) r.2 g.objects,
                     involves := upsert (fun p => p) (r.1, r.2) g.involves } from by
          unfold applyObjectRecord
          rw [if_pos hm]]
      · rw [show (r :: rs).filter (fun x => eventMatches g x.1) =
            rs.filter (fun x => eventMatches g x.1) from by
          rw [List.filter_cons, if_neg (by simpa using hm)]]
        rw [show applyObjectRecord g r = g from by
          unfold applyObjectRecord
          rw [if_neg hm]]

theorem extractEventRecords_ok (log : List InputEvent)
    (h : ∀ e ∈ log, e.ocel_timestamp.isSome = true) :
    extractEventRecords log =
      Except.ok (log.map (fun e =>
        { id := e.ocel_id, timestamp := e.ocel_timestamp.getD 0,
          activity := e.ocel_activity })) := by
  induction log with
  | nil => rfl
  | cons e es ih =>
      have he := h e (List.mem_cons_self _ _)
      rcases ht : e.ocel_timestamp with _ | t
      · rw [ht] at he
        cases he
      · rw [show extractEventRecords (e :: es) = do
            let r ← eventRecord e
            let rs ← extractEventRecords es
            Except.ok (r :: rs) from rfl]
        rw [ih (fun x hx => h x (List.mem_cons_of_mem _ hx))]
        simp only [eventRecord, ht]
        rw [List.map_cons, ht]
        rfl

theorem extractEventRecords_error (log : List InputEvent)
    (h : ∃ e ∈ log, e.ocel_timestamp = none) :
    extractEventRecords log = Except.error "KeyError: ocel:timestamp" := by
  induction log with
  | nil =>
      rcases h with ⟨e, he, _⟩
      cases he
  | cons e es ih =>
      rw [show extractEventRecords (e :: es) = do
          let r ← eventRecord e
          let rs ← extractEventRecords es
          Except.ok (r :: rs) from rfl]
      rcases ht : e.ocel_timestamp with _ | t
      · simp only [eventRecord, ht]
        rfl
      · rcases h with ⟨x, hx, hxt⟩
        rcases List.mem_cons.1 hx with hx | hx
        · subst hx
          rw [ht] at hxt
          cases hxt
        · rw [ih ⟨x, hx, hxt⟩]
          simp only [eventRecord, ht]
          rfl

theorem timestamps_isSome_of_extract_ok (log : List InputEvent) (ers : List EventRecord)
    (h : extractEventRecords log = Except.ok ers) :
    ∀ e ∈ log, e.ocel_timestamp.isSome = true := by
  intro e he
  rcases ht : e.ocel_timestamp with _ | t
  · rw [extractEventRecords_error log ⟨e, he, ht⟩] at h
    cases h
  · rfl

/-- The Event node a well-formed input event produces. -/
def eventNodeOf (e : InputEvent) : EventNode :=
  { ocel_id := e.ocel_id, timestamp := e.ocel_timestamp.getD 0,
    activity_name := e.ocel_activity }

theorem runStages_eq (now : Int) (log : List InputEvent) (g0 : Graph) :
    runStages now log g0 =
      match extractEventRecords log with
      | Except.error m => Except.error m
      | Except.ok ers =>
          Except.ok (List.foldl applyObjectRecord
            (List.foldl applyResourceRecord
              (List.foldl applyActivityRecord
                (List.foldl applyCaseRecord
                  (List.foldl applyEventRecord g0 ers)
                  (caseRecords log))
                (log.map (activityRecord now)))
              (resourceRecords log))
            (objectRecords log)) := by
  unfold runStages
  rcases extractEventRecords log with m | ers <;> rfl

/-- The graph state after the event stage: the guard environment the MATCH
clauses of stages 3-6 run against. -/
def eventEnv (log : List InputEvent) (g0 : Graph) : Graph :=
  { g0 with events := applyAll EventNode.ocel_id (log.map eventNodeOf) g0.events }

/-- The case records whose MATCH clause finds an Event node. -/
def caseRecordsIn (log : List InputEvent) (g0 : Graph) : List (String × String) :=
  (caseRecords log).filter (fun r => eventMatches (eventEnv log g0) r.1)

/-- The activity records whose MATCH clause finds an Event node. -/
def activityRecordsIn (now : Int) (log : List InputEvent) (g0 : Graph) :
    List ActivityRecord :=
  (log.map (activityRecord now)).filter (fun r => eventMatches (eventEnv log g0) r.id)

/-- The resource records whose MATCH clause finds an Event node. -/
def resourceRecordsIn (log : List InputEvent) (g0 : Graph) : List (String × String) :=
  (resourceRecords log).filter (fun r => eventMatches (eventEnv log g0) r.1)

/-- The object records whose MATCH clause finds an Event node. -/
def objectRecordsIn (log : List InputEvent) (g0 : Graph) : List (String × ObjRef) :=
  (objectRecords log).filter (fun r => eventMatches (eventEnv log g0) r.1)

/-- The graph a successful run of steps 2-6 produces, with each collection
written as one keyed `applyAll`. -/
def stagesResult (now : Int) (log : List InputEvent) (g0 : Graph) : Graph :=
  { events := (eventEnv log g0).events
    cases := applyAll (fun c => c) ((caseRecordsIn log g0).map Prod.snd) g0.cases
    activities := applyAll (fun a => a)
      ((activityRecordsIn now log g0).map (fun r => (r.activity, r.timestamp))) g0.activities
    resources := applyAll (fun s => s) ((resourceRecordsIn log g0).map Prod.snd) g0.resources
    objects := applyAll (fun o => o) ((objectRecordsIn log g0).map Prod.snd) g0.objects
    containsEvent := applyAll (fun p => p)
      ((caseRecordsIn log g0).map (fun r => (r.2, r.1))) g0.containsEvent
    ofType := applyAll (fun p => p)
      ((activityRecordsIn now log g0).map (fun r => (r.id, r.activity, r.timestamp))) g0.ofType
    performedBy := applyAll (fun p => p)
      ((resourceRecordsIn log g0).map (fun r => (r.1, r.2))) g0.performedBy
    involves := applyAll (fun p => p)
      ((objectRecordsIn log g0).map (fun r => (r.1, r.2))) g0.involves
    nextEvent := g0.nextEvent }

theorem runStages_ok_of_extract (now : Int) (log : List InputEvent) (g0 : Graph)
    (ers : List EventRecord) (hex : extractEventRecords log = Except.ok ers) :
    runStages now log g0 =
      Except.ok (List.foldl applyObjectRecord
        (List.foldl applyResourceRecord
          (List.foldl applyActivityRecord
            (List.foldl applyCaseRecord
              (List.foldl applyEventRecord g0 ers)
              (caseRecords log))
            (log.map (activityRecord now)))
          (resourceRecords log))
        (objectRecords log)) := by
  rw [runStages_eq, hex]

theorem runStages_error_of_extract (now : Int) (log : List InputEvent) (g0 : Graph)
    (m : String) (hex : extractEventRecords log = Except.error m) :
    runStages now log g0 = Except.error m := by
  rw [runStages_eq, hex]

theorem runStages_ok_eq (now : Int) (log : List InputEvent) (g0 : Graph)
    (h : ∀ e ∈ log, e.ocel_timestamp.isSome = true) :
    runStages now log g0 = Except.ok (stagesResult now log g0) := by
  rw [runStages_ok_of_extract now log g0 _ (extractEventRecords_ok log h)]
  have hnodes : (log.map (fun e =>
      ({ id := e.ocel_id, timestamp := e.ocel_timestamp.getD 0,
         activity := e.ocel_activity } : EventRecord))).map nodeOfEventRecord =
      log.map eventNodeOf := by
    rw [List.map_map]
    rfl
  rw [foldl_applyEventRecord, hnodes]
  rw [foldl_applyCaseRecord]
  rw [foldl_applyActivityRecord]
  rw [foldl_applyResourceRecord]
  rw [foldl_applyObjectRecord]
  unfold stagesResult
  rfl

/-- The nextEvent fold of the sequence query is one `applyAll` over the
concatenation of the per-case derived edges. -/
theorem applySequence_nextEvent (g : Graph) (ord : String → List EventNode) :
    (applySequence g ord).nextEvent =
      applyAll nextKey (g.cases.flatMap (fun c => sequenceEdges (ord c))) g.nextEvent := by
  show List.foldl (fun acc c => applyAll nextKey (sequenceEdges (ord c)) acc)
      g.nextEvent g.cases = _
  generalize g.nextEvent = ne
  induction g.cases generalizing ne with
  | nil => rfl
  | cons c cs ih =>
      rw [List.foldl_cons, List.flatMap_cons, applyAll_append, ih]

theorem graph_ext (a b : Graph)
    (h1 : a.events = b.events) (h2 : a.cases = b.cases)
    (h3 : a.activities = b.activities) (h4 : a.resources = b.resources)
    (h5 : a.objects = b.objects) (h6 : a.containsEvent = b.containsEvent)
    (h7 : a.ofType = b.ofType) (h8 : a.performedBy = b.performedBy)
    (h9 : a.involves = b.involves) (h10 : a.nextEvent = b.nextEvent) : a = b := by
  cases a
  cases b
  dsimp only at h1 h2 h3 h4 h5 h6 h7 h8 h9 h10
  subst h1 h2 h3 h4 h5 h6 h7 h8 h9 h10
  rfl

theorem eventMatches_of_events_eq (g1 g2 : Graph) (h : g1.events = g2.events) :
    eventMatches g1 = eventMatches g2 := by
  funext i
  unfold eventMatches
  rw [h]

/-! ### Replaying the pipeline on its own output (claim C2) -/

theorem events_applySequence (g : Graph) (ord : String → List EventNode) :
    (applySequence g ord).events = g.events := rfl

theorem cases_applySequence (g : Graph) (ord : String → List EventNode) :
    (applySequence g ord).cases = g.cases := rfl

/-- Replaying the event stage over its own output is the identity. -/
theorem eventEnv_events_replay (log : List InputEvent) (g : Graph)
    (h : g.events = (eventEnv log emptyGraph).events) :
    (eventEnv log g).events = (eventEnv log emptyGraph).events := by
  show applyAll EventNode.ocel_id (log.map eventNodeOf) g.events = _
  rw [h]
  show applyAll EventNode.ocel_id (log.map eventNodeOf)
      (applyAll EventNode.ocel_id (log.map eventNodeOf) []) = _
  rw [applyAll_idem EventNode.ocel_id (log.map eventNodeOf) [] (by simp [keysOf])]
  rfl

theorem stagesResult_replay (now1 now2 : Int) (log : List InputEvent)
    (ord : String → List EventNode)
    (hts : ∀ e ∈ log, e.ocel_timestamp.isSome = true) :
    stagesResult now2 log (applySequence (stagesResult now1 log emptyGraph) ord) =
      applySequence (stagesResult now1 log emptyGraph) ord := by
  have hact : log.map (activityRecord now2) = log.map (activityRecord now1) := by
    apply List.map_congr_left
    intro e he
    have hs := hts e he
    rcases ht : e.ocel_timestamp with _ | t
    · rw [ht] at hs
      cases hs
    · unfold activityRecord
      rw [ht]
      rfl
  set g := applySequence (stagesResult now1 log emptyGraph) ord with hg
  have hev : g.events = (eventEnv log emptyGraph).events := rfl
  have hE : (eventEnv log g).events = (eventEnv log emptyGraph).events :=
    eventEnv_events_replay log g hev
  have hmatch : eventMatches (eventEnv log g) = eventMatches (eventEnv log emptyGraph) :=
    eventMatches_of_events_eq _ _ hE
  have hcfil : caseRecordsIn log g = caseRecordsIn log emptyGraph := by
    unfold caseRecordsIn
    rw [hmatch]
  have hafil : activityRecordsIn now2 log g = activityRecordsIn now1 log emptyGraph := by
    unfold activityRecordsIn
    rw [hmatch, hact]
  have hrfil : resourceRecordsIn log g = resourceRecordsIn log emptyGraph := by
    unfold resourceRecordsIn
    rw [hmatch]
  have hofil : objectRecordsIn log g = objectRecordsIn log emptyGraph := by
    unfold objectRecordsIn
    rw [hmatch]
  apply graph_ext
  · show (eventEnv log g).events = g.events
    rw [hE, hev]
  · show applyAll (fun c => c) ((caseRecordsIn log g).map Prod.snd) g.cases = g.cases
    rw [hcfil]
    show applyAll (fun c => c) ((caseRecordsIn log emptyGraph).map Prod.snd)
        (applyAll (fun c => c) ((caseRecordsIn log emptyGraph).map Prod.snd) []) = _
    rw [applyAll_idem (fun c => c) _ [] (by simp [keysOf])]
    rfl
  · show applyAll (fun a => a)
        ((activityRecordsIn now2 log g).map (fun r => (r.activity, r.timestamp)))
        g.activities = g.activities
    rw [hafil]
    show applyAll (fun a => a)
        ((activityRecordsIn now1 log emptyGraph).map (fun r => (r.activity, r.timestamp)))
        (applyAll (fun a => a)
          ((activityRecordsIn now1 log emptyGraph).map (fun r => (r.activity, r.timestamp)))
          []) = _
    rw [applyAll_idem (fun a => a) _ [] (by simp [keysOf])]
    rfl
  · show applyAll (fun s => s) ((resourceRecordsIn log g).map Prod.snd) g.resources =
        g.resources
    rw [hrfil]
    show applyAll (fun s => s) ((resourceRecordsIn log emptyGraph).map Prod.snd)
        (applyAll (fun s => s) ((resourceRecordsIn log emptyGraph).map Prod.snd) []) = _
    rw [applyAll_idem (fun s => s) _ [] (by simp [keysOf])]
    rfl
  · show applyAll (fun o => o) ((objectRecordsIn log g).map Prod.snd) g.objects =
        g.objects
    rw [hofil]
    show applyAll (fun o => o) ((objectRecordsIn log emptyGraph).map Prod.snd)
        (applyAll (fun o => o) ((objectRecordsIn log emptyGraph).map Prod.snd) []) = _
    rw [applyAll_idem (fun o => o) _ [] (by simp [keysOf])]
    rfl
  · show applyAll (fun p => p) ((caseRecordsIn log g).map (fun r => (r.2, r.1)))
        g.containsEvent = g.containsEvent
    rw [hcfil]
    show applyAll (fun p => p) ((caseRecordsIn log emptyGraph).map (fun r => (r.2, r.1)))
        (applyAll (fun p => p)
          ((caseRecordsIn log emptyGraph).map (fun r => (r.2, r.1))) []) = _
    rw [applyAll_idem (fun p => p) _ [] (by simp [keysOf])]
    rfl
  · show applyAll (fun p => p)
        ((activityRecordsIn now2 log g).map (fun r => (r.id, r.activity, r.timestamp)))
        g.ofType = g.ofType
    rw [hafil]
    show applyAll (fun p => p)
        ((activityRecordsIn now1 log emptyGraph).map (fun r => (r.id, r.activity, r.timestamp)))
        (applyAll (fun p => p)
          ((activityRecordsIn now1 log emptyGraph).map (fun r => (r.id, r.activity, r.timestamp)))
          []) = _
    rw [applyAll_idem (fun p => p) _ [] (by simp [keysOf])]
    rfl
  · show applyAll (fun p => p) ((resourceRecordsIn log g).map (fun r => (r.1, r.2)))
        g.performedBy = g.performedBy
    rw [hrfil]
    show applyAll (fun p => p) ((resourceRecordsIn log emptyGraph).map (fun r => (r.1, r.2)))
        (applyAll (fun p => p)
          ((resourceRecordsIn log emptyGraph).map (fun r => (r.1, r.2))) []) = _
    rw [applyAll_idem (fun p => p) _ [] (by simp [keysOf])]
    rfl
  · show applyAll (fun p => p) ((objectRecordsIn log g).map (fun r => (r.1, r.2)))
        g.involves = g.involves
    rw [hofil]
    show applyAll (fun p => p) ((objectRecordsIn log emptyGraph).map (fun r => (r.1, r.2)))
        (applyAll (fun p => p)
          ((objectRecordsIn log emptyGraph).map (fun r => (r.1, r.2))) []) = _
    rw [applyAll_idem (fun p => p) _ [] (by simp [keysOf])]
    rfl
  · rfl

/-- Re-running the sequence query with the same row order merges exactly the
edges already present. -/
theorem applySequence_replay (S : Graph) (ord : String → List EventNode)
    (h : S.nextEvent = []) :
    applySequence (applySequence S ord) ord = applySequence S ord := by
  apply graph_ext
  · rfl
  · rfl
  · rfl
  · rfl
  · rfl
  · rfl
  · rfl
  · rfl
  · rfl
  · rw [applySequence_nextEvent (applySequence S ord) ord]
    rw [cases_applySequence]
    rw [applySequence_nextEvent S ord]
    rw [h]
    exact applyAll_idem nextKey _ [] (by simp [keysOf])

theorem except_bind_ok {ε α β : Type} (a : α) (f : α → Except ε β) :
    (Except.ok a : Except ε α) >>= f = f a := rfl

theorem except_bind_error {ε α β : Type} (m : ε) (f : α → Except ε β) :
    (Except.error m : Except ε α) >>= f = Except.error m := rfl

theorem timestamps_of_runStages_ok (now : Int) (log : List InputEvent) (g0 g : Graph)
    (h : runStages now log g0 = Except.ok g) :
    ∀ e ∈ log, e.ocel_timestamp.isSome = true := by
  intro e he
  rcases ht : e.ocel_timestamp with _ | t
  · have hex := extractEventRecords_error log ⟨e, he, ht⟩
    rw [runStages_error_of_extract now log g0 _ hex] at h
    cases h
  · rfl

theorem runPipeline_eq (now : Int) (ord : String → List EventNode)
    (log : List InputEvent) (g0 : Graph) :
    runPipeline now ord log g0 =
      match runStages now log g0 with
      | Except.error m => Except.error m
      | Except.ok g => Except.ok (applySequence g ord) := by
  unfold runPipeline
  rcases runStages now log g0 with m | g <;> rfl

theorem timestamps_of_runPipeline_ok (now : Int) (ord : String → List EventNode)
    (log : List InputEvent) (g0 g : Graph)
    (h : runPipeline now ord log g0 = Except.ok g) :
    ∀ e ∈ log, e.ocel_timestamp.isSome = true := by
  rw [runPipeline_eq] at h
  rcases hs : runStages now log g0 with m | g'
  · rw [hs] at h
    cases h
  · exact timestamps_of_runStages_ok now log g0 g' hs

/-! ### Claim C1 -/

/-- C1: the spec claims the Sequence Deriver acquires its session from the
still-open store connection after the upsert stages and the pipeline
terminates in SUCCESS.  In the code, step 7 (lines 173-189) sits after the
`with` block (lines 45-171) that closes the driver, so `driver.session()` at
line 188 runs on the closed driver and raises: the run cannot reach SUCCESS.
With step 7 inside the block — the order the spec describes — it would. -/
theorem claim_C1_sequence_session_after_close :
    scriptSucceeds appScriptOrder = false ∧
    scriptSucceeds intendedScriptOrder = true := by
  constructor <;> rfl

/-! ### Claim C2 -/

def c2e1 : InputEvent :=
  { ocel_id := "e1", ocel_timestamp := some 1, ocel_activity := "A",
    attr_case_id := some "c", attr_resource := none, ocel_objects := [] }

def c2e2 : InputEvent :=
  { ocel_id := "e2", ocel_timestamp := some 1, ocel_activity := "B",
    attr_case_id := some "c", attr_resource := none, ocel_objects := [] }

def c2e3 : InputEvent :=
  { ocel_id := "e3", ocel_timestamp := some 2, ocel_activity := "C",
    attr_case_id := some "c", attr_resource := none, ocel_objects := [] }

def c2Log : List InputEvent := [c2e1, c2e2, c2e3]

def c2n1 : EventNode := { ocel_id := "e1", timestamp := 1, activity_name := "A" }

def c2n2 : EventNode := { ocel_id := "e2", timestamp := 1, activity_name := "B" }

def c2n3 : EventNode := { ocel_id := "e3", timestamp := 2, activity_name := "C" }

/-- One timestamp-sorted row order for case c. -/
def c2Ord1 : String → List EventNode := fun _ => [c2n1, c2n2, c2n3]

/-- Another timestamp-sorted row order for case c (the tied rows swapped). -/
def c2Ord2 : String → List EventNode := fun _ => [c2n2, c2n1, c2n3]

def c2G1 : Graph := (runPipeline 0 c2Ord1 c2Log emptyGraph).toOption.getD emptyGraph

/-- C2 counterexample: on a log whose case has two events with equal
timestamps, running the pipeline a second time with a different (equally
legal, timestamp-sorted) row order adds a NEXT_EVENT edge: the edge count
grows from 1 to 2, so the second run does not preserve node and edge counts. -/
theorem claim_C2_counterexample :
    runPipeline 0 c2Ord1 c2Log emptyGraph = Except.ok c2G1 ∧
    ValidOrder c2G1 c2Ord1 ∧ ValidOrder c2G1 c2Ord2 ∧
    c2G1.nextEvent.length = 1 ∧
    (runPipeline 0 c2Ord2 c2Log c2G1).toOption.map (fun g => g.nextEvent.length) =
      some 2 := by
  refine ⟨rfl, ?_, ?_, by decide, by decide⟩
  · unfold ValidOrder
    decide
  · unfold ValidOrder
    decide

/-- C2 (amended): the five upsert stages are unconditionally idempotent, and
re-running the whole pipeline on its own output reproduces the graph exactly —
hence equal node and edge counts — provided the sequence derivation enumerates
each case's events in the same row order in both runs (`ord`); the wall-clock
fallback parameter (`now1`/`now2`) may differ freely between runs. -/
theorem claim_C2_pipeline_idempotent (now1 now2 : Int) (ord : String → List EventNode)
    (log : List InputEvent) (g : Graph)
    (h : runPipeline now1 ord log emptyGraph = Except.ok g) :
    runPipeline now2 ord log g = Except.ok g := by
  have hts := timestamps_of_runPipeline_ok now1 ord log emptyGraph g h
  have h1 : runStages now1 log emptyGraph = Except.ok (stagesResult now1 log emptyGraph) :=
    runStages_ok_eq now1 log emptyGraph hts
  rw [runPipeline_eq, h1] at h
  have hg : applySequence (stagesResult now1 log emptyGraph) ord = g := by
    simpa using h
  rw [runPipeline_eq, runStages_ok_eq now2 log g hts]
  show Except.ok (applySequence (stagesResult now2 log g) ord) = Except.ok g
  rw [← hg]
  rw [stagesResult_replay now1 now2 log ord hts]
  rw [applySequence_replay _ ord rfl]

def c2wLog : List InputEvent := [c2e1, c2e3]

def c2wOrd : String → List EventNode := fun _ => [c2n1, c2n3]

def c2wG : Graph := (runPipeline 5 c2wOrd c2wLog emptyGraph).toOption.getD emptyGraph

/-- C2 witness: a concrete two-event log on which the second run (with a
different wall-clock parameter) returns the first run's graph unchanged. -/
theorem claim_C2_witness :
    runPipeline 5 c2wOrd c2wLog emptyGraph = Except.ok c2wG ∧
    runPipeline 7 c2wOrd c2wLog c2wG = Except.ok c2wG :=
  ⟨rfl, claim_C2_pipeline_idempotent 5 7 c2wOrd c2wLog c2wG rfl⟩

/-! ### Claim C6 -/

theorem flushFold_bound {ρ : Type} (B : Nat) (hB : 1 ≤ B) (contribs : List (List ρ)) :
    ∀ (gs : List (List ρ)) (buf : List ρ),
      (∀ grp ∈ gs, grp.length ≤ B) → buf.length < B →
      (∀ c ∈ contribs, c.length ≤ 1) →
      (∀ grp ∈ (List.foldl (flushStep B) (gs, buf) contribs).1, grp.length ≤ B) ∧
        (List.foldl (flushStep B) (gs, buf) contribs).2.length < B := by
  induction contribs with
  | nil =>
      intro gs buf hgs hbuf _
      exact ⟨hgs, hbuf⟩
  | cons c cs ih =>
      intro gs buf hgs hbuf hlen
      rw [List.foldl_cons]
      have hc : c.length ≤ 1 := hlen c (List.mem_cons_self _ _)
      have hcs : ∀ x ∈ cs, x.length ≤ 1 :=
        fun x hx => hlen x (List.mem_cons_of_mem _ hx)
      by_cases hflush : B ≤ buf.length + c.length
      · rw [show flushStep B (gs, buf) c = (gs ++ [buf ++ c], []) from by
          simp [flushStep, List.length_append, hflush]]
        apply ih
        · intro grp hgrp
          rcases List.mem_append.1 hgrp with h1 | h1
          · exact hgs grp h1
          · rcases List.mem_singleton.1 h1 with rfl
            rw [List.length_append]
            omega
        · simpa using hB
        · exact hcs
      · rw [show flushStep B (gs, buf) c = (gs, buf ++ c) from by
          simp [flushStep, List.length_append, hflush]]
        apply ih
        · exact hgs
        · rw [List.length_append]
          omega
        · exact hcs

theorem stageBatches_bound {ρ : Type} (B : Nat) (hB : 1 ≤ B)
    (contribs : List (List ρ)) (h : ∀ c ∈ contribs, c.length ≤ 1) :
    ∀ grp ∈ stageBatches B contribs, grp.length ≤ B := by
  have hb := flushFold_bound B hB contribs [] [] (by intro grp hgrp; cases hgrp)
    (by simpa using hB) h
  intro grp hgrp
  unfold stageBatches flushAccum at hgrp
  rcases List.mem_append.1 hgrp with h1 | h2
  · exact hb.1 grp h1
  · unfold execute_batch at h2
    rcases hsplit : (List.foldl (flushStep B) ([], []) contribs).2 with _ | ⟨x, xs⟩
    · rw [hsplit] at h2
      cases h2
    · rw [hsplit] at h2
      simp only [List.isEmpty_cons] at h2
      rcases List.mem_singleton.1 (by simpa using h2) with rfl
      rw [← hsplit]
      exact le_of_lt hb.2

def c6Event : InputEvent :=
  { ocel_id := "e1", ocel_timestamp := some 0, ocel_activity := "A",
    attr_case_id := none, attr_resource := none,
    ocel_objects := [⟨"o1", "T"⟩, ⟨"o2", "T"⟩] }

/-- C6 counterexample: with BATCH_SIZE = 1 (a legal positive batch size), the
object stage appends both object records of one event before its flush check
and hands the store a single group of 2 records — more than BATCH_SIZE. -/
theorem claim_C6_counterexample :
    stageBatches 1 (objectContribs [c6Event]) =
      [[("e1", ⟨"o1", "T"⟩), ("e1", ⟨"o2", "T"⟩)]] ∧
    ∃ grp ∈ stageBatches 1 (objectContribs [c6Event]), 1 < grp.length := by
  refine ⟨by decide, ?_⟩
  refine ⟨[("e1", ⟨"o1", "T"⟩), ("e1", ⟨"o2", "T"⟩)], by decide, by decide⟩

/-- C6 (amended): `execute_batch` on an empty record sequence performs no
write, and for the Event, Case, Activity and Resource stages — whose loops
append at most one record per iteration — every group handed to the store has
at most BATCH_SIZE records; the Object stage's loop appends all of an event's
object records before its flush check, so its groups can exceed BATCH_SIZE. -/
theorem claim_C6_batch_bounds (B : Nat) (hB : 1 ≤ B) :
    (∀ (ρ : Type), execute_batch ([] : List ρ) = []) ∧
    (∀ (ers : List EventRecord),
      ∀ grp ∈ stageBatches B (eventContribs ers), grp.length ≤ B) ∧
    (∀ (log : List InputEvent),
      ∀ grp ∈ stageBatches B (caseContribs log), grp.length ≤ B) ∧
    (∀ (now : Int) (log : List InputEvent),
      ∀ grp ∈ stageBatches B (activityContribs now log), grp.length ≤ B) ∧
    (∀ (log : List InputEvent),
      ∀ grp ∈ stageBatches B (resourceContribs log), grp.length ≤ B) := by
  refine ⟨fun ρ => rfl, ?_, ?_, ?_, ?_⟩
  · intro ers
    apply stageBatches_bound B hB
    intro c hc
    rcases List.mem_map.1 hc with ⟨r, _, rfl⟩
    exact le_refl 1
  · intro log
    apply stageBatches_bound B hB
    intro c hc
    rcases List.mem_map.1 hc with ⟨e, _, rfl⟩
    rcases e.attr_case_id with _ | cid <;> simp
  · intro now log
    apply stageBatches_bound B hB
    intro c hc
    rcases List.mem_map.1 hc with ⟨e, _, rfl⟩
    exact le_refl 1
  · intro log
    apply stageBatches_bound B hB
    intro c hc
    rcases List.mem_map.1 hc with ⟨e, _, rfl⟩
    rcases e.attr_resource with _ | r <;> simp

/-- C6 witness: a concrete instantiation of the amended bounds at
BATCH_SIZE = 2 on a two-event log. -/
theorem claim_C6_witness :
    (execute_batch ([] : List EventRecord) = []) ∧
    ∀ grp ∈ stageBatches 2 (caseContribs [c2e1, c2e2]), grp.length ≤ 2 := by
  have h := claim_C6_batch_bounds 2 (by omega)
  exact ⟨h.1 EventRecord, h.2.2.1 [c2e1, c2e2]⟩

/-! ### Claim C9 -/

def c9Event : InputEvent :=
  { ocel_id := "e9", ocel_timestamp := none, ocel_activity := "A",
    attr_case_id := none, attr_resource := none, ocel_objects := [] }

/-- C9 counterexample: for an event whose timestamp attribute is missing, the
activity-record builder would substitute the wall-clock time (here 42), but the
pipeline fails in the Event stage with a KeyError before the Activity stage
runs, so the event is not ingested — contradicting the claim that the event is
still ingested. -/
theorem claim_C9_counterexample :
    (activityRecord 42 c9Event).timestamp = 42 ∧
    runStages 42 [c9Event] emptyGraph = Except.error "KeyError: ocel:timestamp" ∧
    runPipeline 42 (fun _ => []) [c9Event] emptyGraph =
      Except.error "KeyError: ocel:timestamp" := by
  refine ⟨rfl, rfl, rfl⟩

/-- C9 (amended): the Activity-stage record builder does substitute the
current wall-clock time for a missing timestamp, but the Event stage — which
runs first — reads `event['ocel:timestamp']` unconditionally and raises
KeyError on such an event, aborting the run; the event is not ingested. -/
theorem claim_C9_fallback_unreachable (now : Int) (e : InputEvent)
    (log : List InputEvent) (g0 : Graph)
    (ht : e.ocel_timestamp = none) (he : e ∈ log) :
    (activityRecord now e).timestamp = now ∧
    runStages now log g0 = Except.error "KeyError: ocel:timestamp" := by
  constructor
  · unfold activityRecord
    rw [ht]
    rfl
  · exact runStages_error_of_extract now log g0 _ (extractEventRecords_error log ⟨e, he, ht⟩)

/-- C9 witness: the amended statement instantiated at a concrete event. -/
theorem claim_C9_witness :
    (activityRecord 7 c9Event).timestamp = 7 ∧
    runStages 7 [c9Event] emptyGraph = Except.error "KeyError: ocel:timestamp" :=
  claim_C9_fallback_unreachable 7 c9Event [c9Event] emptyGraph rfl
    (List.mem_singleton.2 rfl)

/-! ### Adjacent pairs and derived edges (claims C3, C4, C5, C10) -/

theorem mem_adjacentPairs_iff {α : Type} (l : List α) (p : α × α) :
    p ∈ adjacentPairs l ↔
      ∃ i, ∃ h : i + 1 < l.length, p = (l[i], l[i + 1]) := by
  induction l with
  | nil =>
      constructor
      · intro hp
        cases hp
      · rintro ⟨i, h, _⟩
        simp at h
  | cons a t ih =>
      cases t with
      | nil =>
          constructor
          · intro hp
            cases hp
          · rintro ⟨i, h, _⟩
            simp at h
      | cons b r =>
          rw [show adjacentPairs (a :: b :: r) = (a, b) :: adjacentPairs (b :: r) from rfl]
          constructor
          · intro hp
            rcases List.mem_cons.1 hp with hp | hp
            · exact ⟨0, by simp, by simpa using hp⟩
            · rcases ih.1 hp with ⟨i, h, hpe⟩
              refine ⟨i + 1, by simp only [List.length_cons] at h ⊢; omega, ?_⟩
              exact hpe
          · rintro ⟨i, h, rfl⟩
            cases i with
            | zero => exact List.mem_cons_self _ _
            | succ i =>
                apply List.mem_cons_of_mem
                apply ih.2
                refine ⟨i, by simp only [List.length_cons] at h ⊢; omega, rfl⟩

theorem mem_of_mem_adjacentPairs {α : Type} (l : List α) (p : α × α)
    (h : p ∈ adjacentPairs l) : p.1 ∈ l ∧ p.2 ∈ l := by
  rcases (mem_adjacentPairs_iff l p).1 h with ⟨i, hi, rfl⟩
  exact ⟨List.getElem_mem _, List.getElem_mem _⟩

theorem mem_sequenceEdges_iff (events : List EventNode) (n : NextEdge) :
    n ∈ sequenceEdges events ↔
      ∃ p ∈ adjacentPairs events, p.1.timestamp < p.2.timestamp ∧ p.1 ≠ p.2 ∧
        n = { src := p.1.ocel_id, dst := p.2.ocel_id,
              time_difference := p.2.timestamp - p.1.timestamp } := by
  unfold sequenceEdges
  rw [List.mem_filterMap]
  constructor
  · rintro ⟨p, hp, hsome⟩
    by_cases hc : p.1.timestamp < p.2.timestamp ∧ p.1 ≠ p.2
    · rw [if_pos hc] at hsome
      exact ⟨p, hp, hc.1, hc.2, (Option.some.inj hsome).symm⟩
    · rw [if_neg hc] at hsome
      cases hsome
  · rintro ⟨p, hp, h1, h2, rfl⟩
    refine ⟨p, hp, ?_⟩
    rw [if_pos ⟨h1, h2⟩]

/-! ### Claim C3 -/

/-- C3: in one case's collected, timestamp-sorted event list, a NEXT_EVENT
edge is derived for an adjacent pair exactly when the first event's timestamp
is strictly below the second's, with `time_difference` equal to the timestamp
difference in seconds; three events with t1 < t2 < t3 give exactly the two
edges e1→e2 and e2→e3 with differences t2−t1 and t3−t2, and an adjacent pair
with equal timestamps gives no edge. -/
theorem claim_C3_sequence_edge_characterization :
    (∀ (events : List EventNode) (i : Nat) (h : i + 1 < events.length),
      events[i].timestamp < events[i + 1].timestamp →
      ({ src := events[i].ocel_id, dst := events[i + 1].ocel_id,
         time_difference := events[i + 1].timestamp - events[i].timestamp } : NextEdge) ∈
        sequenceEdges events) ∧
    (∀ (events : List EventNode) (n : NextEdge), n ∈ sequenceEdges events →
      ∃ i, ∃ h : i + 1 < events.length,
        events[i].timestamp < events[i + 1].timestamp ∧
        n = { src := events[i].ocel_id, dst := events[i + 1].ocel_id,
              time_difference := events[i + 1].timestamp - events[i].timestamp }) ∧
    (∀ e1 e2 e3 : EventNode, e1.timestamp < e2.timestamp → e2.timestamp < e3.timestamp →
      sequenceEdges [e1, e2, e3] =
        [{ src := e1.ocel_id, dst := e2.ocel_id,
           time_difference := e2.timestamp - e1.timestamp },
         { src := e2.ocel_id, dst := e3.ocel_id,
           time_difference := e3.timestamp - e2.timestamp }]) ∧
    (∀ e1 e2 : EventNode, e1.timestamp = e2.timestamp → sequenceEdges [e1, e2] = []) := by
  refine ⟨?_, ?_, ?_, ?_⟩
  · intro events i h hlt
    have hne : events[i] ≠ events[i + 1] := by
      intro he
      rw [he] at hlt
      exact lt_irrefl _ hlt
    apply (mem_sequenceEdges_iff events _).2
    exact ⟨(events[i], events[i + 1]),
      (mem_adjacentPairs_iff events _).2 ⟨i, h, rfl⟩, hlt, hne, rfl⟩
  · intro events n hn
    rcases (mem_sequenceEdges_iff events n).1 hn with ⟨p, hp, hlt, hne, rfl⟩
    rcases (mem_adjacentPairs_iff events p).1 hp with ⟨i, h, rfl⟩
    exact ⟨i, h, hlt, rfl⟩
  · intro e1 e2 e3 h12 h23
    have hne12 : e1 ≠ e2 := by
      intro he
      rw [he] at h12
      exact lt_irrefl _ h12
    have hne23 : e2 ≠ e3 := by
      intro he
      rw [he] at h23
      exact lt_irrefl _ h23
    simp [sequenceEdges, adjacentPairs, h12, h23, hne12, hne23]
  · intro e1 e2 h
    simp [sequenceEdges, adjacentPairs, h]

def c3n1 : EventNode := { ocel_id := "x1", timestamp := 0, activity_name := "A" }

def c3n2 : EventNode := { ocel_id := "x2", timestamp := 5, activity_name := "B" }

def c3n3 : EventNode := { ocel_id := "x3", timestamp := 7, activity_name := "C" }

def c3n4 : EventNode := { ocel_id := "x4", timestamp := 3, activity_name := "D" }

def c3n5 : EventNode := { ocel_id := "x5", timestamp := 3, activity_name := "E" }

/-- C3 witness: the scenario conjuncts at concrete nodes. -/
theorem claim_C3_witness :
    sequenceEdges [c3n1, c3n2, c3n3] =
      [{ src := c3n1.ocel_id, dst := c3n2.ocel_id,
         time_difference := c3n2.timestamp - c3n1.timestamp },
       { src := c3n2.ocel_id, dst := c3n3.ocel_id,
         time_difference := c3n3.timestamp - c3n2.timestamp }] ∧
    sequenceEdges [c3n4, c3n5] = [] :=
  ⟨claim_C3_sequence_edge_characterization.2.2.1 c3n1 c3n2 c3n3 (by decide) (by decide),
   claim_C3_sequence_edge_characterization.2.2.2 c3n4 c3n5 (by decide)⟩

/-! ### Shared helpers for the graph-level sequence claims -/

theorem eq_of_keys_eq_of_mem {α κ : Type} [DecidableEq κ] (key : α → κ) (l : List α)
    (hnd : (keysOf key l).Nodup) (a b : α) (ha : a ∈ l) (hb : b ∈ l)
    (hk : key a = key b) : a = b := by
  have h1 := valueAt_of_mem_nodup key a l ha hnd
  have h2 := valueAt_of_mem_nodup key b l hb hnd
  rw [hk] at h1
  rw [h1] at h2
  exact Option.some.inj h2

theorem runStages_ok_inv (now : Int) (log : List InputEvent) (g0 gs : Graph)
    (hs : runStages now log g0 = Except.ok gs) : gs = stagesResult now log g0 := by
  have hts := timestamps_of_runStages_ok now log g0 gs hs
  rw [runStages_ok_eq now log g0 hts] at hs
  exact (Except.ok.inj hs).symm

theorem nodup_ids_stagesResult (now : Int) (log : List InputEvent) :
    (keysOf EventNode.ocel_id (stagesResult now log emptyGraph).events).Nodup :=
  nodup_keysOf_applyAll EventNode.ocel_id (log.map eventNodeOf) [] (by simp [keysOf])

theorem mem_caseEvents (g : Graph) (c : String) (x : EventNode) :
    x ∈ caseEvents g c ↔ x ∈ g.events ∧ (c, x.ocel_id) ∈ g.containsEvent := by
  unfold caseEvents
  rw [List.mem_filter]
  constructor
  · rintro ⟨h1, h2⟩
    exact ⟨h1, of_decide_eq_true h2⟩
  · rintro ⟨h1, h2⟩
    exact ⟨h1, decide_eq_true h2⟩

theorem keysOf_id {α : Type} (l : List α) : keysOf (fun p => p) l = l := by
  unfold keysOf
  exact List.map_id' l

theorem mapkeys_eventNodeOf (log : List InputEvent) :
    keysOf EventNode.ocel_id (log.map eventNodeOf) = log.map InputEvent.ocel_id := by
  unfold keysOf
  rw [List.map_map]
  rfl

theorem eventMatches_eventEnv (log : List InputEvent) (i : String)
    (h : ∃ x ∈ log, x.ocel_id = i) : eventMatches (eventEnv log emptyGraph) i = true := by
  unfold eventMatches
  rw [List.any_eq_true]
  rcases h with ⟨x, hx, rfl⟩
  have hkey : x.ocel_id ∈ keysOf EventNode.ocel_id (eventEnv log emptyGraph).events :=
    mem_keysOf_applyAll_of_rec EventNode.ocel_id (log.map eventNodeOf) []
      (eventNodeOf x) (List.mem_map_of_mem _ hx)
  rcases List.mem_map.1 hkey with ⟨en, hen, hid⟩
  refine ⟨en, hen, ?_⟩
  rw [hid]
  exact beq_self_eq_true _

theorem activityRecordsIn_all (now : Int) (log : List InputEvent) :
    activityRecordsIn now log emptyGraph = log.map (activityRecord now) := by
  unfold activityRecordsIn
  apply List.filter_eq_self.2
  intro r hr
  rcases List.mem_map.1 hr with ⟨e, he, rfl⟩
  exact eventMatches_eventEnv log _ ⟨e, he, rfl⟩

theorem objectRecordsIn_all (log : List InputEvent) :
    objectRecordsIn log emptyGraph = objectRecords log := by
  unfold objectRecordsIn
  apply List.filter_eq_self.2
  intro r hr
  rcases List.mem_flatMap.1 hr with ⟨x, hx, hr2⟩
  rcases List.mem_map.1 hr2 with ⟨o, ho, rfl⟩
  exact eventMatches_eventEnv log _ ⟨x, hx, rfl⟩

/-! ### Claim C5 -/

/-- C5: every NEXT_EVENT edge the sequence derivation creates on the graph the
upsert stages produced connects two distinct events of the same case, points
from the strictly earlier to the strictly later timestamp, and carries a
non-negative time_difference equal to the timestamp difference. -/
theorem claim_C5_next_event_invariants (now : Int) (log : List InputEvent)
    (ord : String → List EventNode) (gs : Graph)
    (hs : runStages now log emptyGraph = Except.ok gs)
    (hord : ValidOrder gs ord) :
    ∀ n ∈ (applySequence gs ord).nextEvent,
      n.src ≠ n.dst ∧ 0 ≤ n.time_difference ∧
      (∃ c ∈ gs.cases, (c, n.src) ∈ gs.containsEvent ∧ (c, n.dst) ∈ gs.containsEvent) ∧
      (∃ e1 ∈ gs.events, ∃ e2 ∈ gs.events, e1.ocel_id = n.src ∧ e2.ocel_id = n.dst ∧
        e1.timestamp < e2.timestamp ∧
        n.time_difference = e2.timestamp - e1.timestamp) := by
  have hgs := runStages_ok_inv now log emptyGraph gs hs
  subst hgs
  have hnodup := nodup_ids_stagesResult now log
  intro n hn
  rw [applySequence_nextEvent] at hn
  rw [show (stagesResult now log emptyGraph).nextEvent = ([] : List NextEdge) from rfl] at hn
  rcases mem_of_mem_applyAll nextKey _ _ n hn with h | h
  · cases h
  · rcases List.mem_flatMap.1 h with ⟨c, hc, hseq⟩
    rcases (mem_sequenceEdges_iff _ n).1 hseq with ⟨p, hp, hlt, hnep, rfl⟩
    have hmem := mem_of_mem_adjacentPairs _ p hp
    have hperm := (hord c hc).1
    have h1 := (mem_caseEvents _ c p.1).1 (hperm.mem_iff.1 hmem.1)
    have h2 := (mem_caseEvents _ c p.2).1 (hperm.mem_iff.1 hmem.2)
    refine ⟨?_, by simp only []; omega, ⟨c, hc, h1.2, h2.2⟩,
      ⟨p.1, h1.1, p.2, h2.1, rfl, rfl, hlt, rfl⟩⟩
    intro hsd
    have hpe : p.1 = p.2 :=
      eq_of_keys_eq_of_mem EventNode.ocel_id _ hnodup p.1 p.2 h1.1 h2.1 hsd
    rw [hpe] at hlt
    exact lt_irrefl _ hlt

def c5e1 : InputEvent :=
  { ocel_id := "y1", ocel_timestamp := some 0, ocel_activity := "A",
    attr_case_id := some "k", attr_resource := none, ocel_objects := [] }

def c5e2 : InputEvent :=
  { ocel_id := "y2", ocel_timestamp := some 4, ocel_activity := "B",
    attr_case_id := some "k", attr_resource := none, ocel_objects := [] }

def c5Log : List InputEvent := [c5e1, c5e2]

def c5G : Graph := (runStages 0 c5Log emptyGraph).toOption.getD emptyGraph

def c5Ord : String → List EventNode :=
  fun _ => [{ ocel_id := "y1", timestamp := 0, activity_name := "A" },
            { ocel_id := "y2", timestamp := 4, activity_name := "B" }]

def c5Edge : NextEdge := { src := "y1", dst := "y2", time_difference := 4 }

/-- C5 witness: the invariants instantiated at the one edge of a concrete
two-event run. -/
theorem claim_C5_witness :
    c5Edge ∈ (applySequence c5G c5Ord).nextEvent ∧
    (c5Edge.src ≠ c5Edge.dst ∧ 0 ≤ c5Edge.time_difference ∧
      (∃ c ∈ c5G.cases, (c, c5Edge.src) ∈ c5G.containsEvent ∧
        (c, c5Edge.dst) ∈ c5G.containsEvent) ∧
      (∃ e1 ∈ c5G.events, ∃ e2 ∈ c5G.events, e1.ocel_id = c5Edge.src ∧
        e2.ocel_id = c5Edge.dst ∧ e1.timestamp < e2.timestamp ∧
        c5Edge.time_difference = e2.timestamp - e1.timestamp)) :=
  ⟨by decide,
   claim_C5_next_event_invariants 0 c5Log c5Ord c5G rfl
     (by unfold ValidOrder; decide) c5Edge (by decide)⟩

/-! ### Claim C10 -/

/-- C10: within one case, the derived NEXT_EVENT relation is functional in
both directions: among the edges derived from that case's row order, any two
edges with the same source coincide, and any two with the same target
coincide — so the per-case relation is a union of disjoint chain segments. -/
theorem claim_C10_at_most_one_next (now : Int) (log : List InputEvent)
    (ord : String → List EventNode) (gs : Graph) (c : String)
    (hs : runStages now log emptyGraph = Except.ok gs)
    (hord : ValidOrder gs ord) (hc : c ∈ gs.cases) :
    (∀ n1 ∈ sequenceEdges (ord c), ∀ n2 ∈ sequenceEdges (ord c),
      n1.src = n2.src → n1 = n2) ∧
    (∀ n1 ∈ sequenceEdges (ord c), ∀ n2 ∈ sequenceEdges (ord c),
      n1.dst = n2.dst → n1 = n2) := by
  have hgs := runStages_ok_inv now log emptyGraph gs hs
  subst hgs
  have hnodup := nodup_ids_stagesResult now log
  have hsubl : List.Sublist
      ((caseEvents (stagesResult now log emptyGraph) c).map EventNode.ocel_id)
      ((stagesResult now log emptyGraph).events.map EventNode.ocel_id) :=
    List.Sublist.map _ (List.filter_sublist _)
  have hperm := (hord c hc).1
  have hids : ((ord c).map EventNode.ocel_id).Nodup :=
    ((hperm.map EventNode.ocel_id).nodup_iff).2 (hnodup.sublist hsubl)
  have hnd : (ord c).Nodup := List.Nodup.of_map _ hids
  have hkey : ∀ (i j : Nat) (hi : i < (ord c).length) (hj : j < (ord c).length),
      (ord c)[i].ocel_id = (ord c)[j].ocel_id → i = j := by
    intro i j hi hj hsame
    have hel : (ord c)[i] = (ord c)[j] :=
      eq_of_keys_eq_of_mem EventNode.ocel_id (ord c) hids _ _
        (List.getElem_mem _) (List.getElem_mem _) hsame
    exact (List.Nodup.getElem_inj_iff hnd).1 hel
  constructor
  · intro n1 hn1 n2 hn2 hsrc
    rcases (mem_sequenceEdges_iff _ n1).1 hn1 with ⟨p1, hp1, hlt1, hne1, rfl⟩
    rcases (mem_sequenceEdges_iff _ n2).1 hn2 with ⟨p2, hp2, hlt2, hne2, rfl⟩
    rcases (mem_adjacentPairs_iff _ p1).1 hp1 with ⟨i, hi, rfl⟩
    rcases (mem_adjacentPairs_iff _ p2).1 hp2 with ⟨j, hj, rfl⟩
    have hij : i = j := hkey i j (by omega) (by omega) hsrc
    subst hij
    rfl
  · intro n1 hn1 n2 hn2 hdst
    rcases (mem_sequenceEdges_iff _ n1).1 hn1 with ⟨p1, hp1, hlt1, hne1, rfl⟩
    rcases (mem_sequenceEdges_iff _ n2).1 hn2 with ⟨p2, hp2, hlt2, hne2, rfl⟩
    rcases (mem_adjacentPairs_iff _ p1).1 hp1 with ⟨i, hi, rfl⟩
    rcases (mem_adjacentPairs_iff _ p2).1 hp2 with ⟨j, hj, rfl⟩
    have hij : i + 1 = j + 1 := hkey (i + 1) (j + 1) hi hj hdst
    have : i = j := by omega
    subst this
    rfl

def c10e1 : InputEvent :=
  { ocel_id := "u1", ocel_timestamp := some 0, ocel_activity := "A",
    attr_case_id := some "k", attr_resource := none, ocel_objects := [] }

def c10e2 : InputEvent :=
  { ocel_id := "u2", ocel_timestamp := some 2, ocel_activity := "B",
    attr_case_id := some "k", attr_resource := none, ocel_objects := [] }

def c10e3 : InputEvent :=
  { ocel_id := "u3", ocel_timestamp := some 5, ocel_activity := "C",
    attr_case_id := some "k", attr_resource := none, ocel_objects := [] }

def c10Log : List InputEvent := [c10e1, c10e2, c10e3]

def c10G : Graph := (runStages 0 c10Log emptyGraph).toOption.getD emptyGraph

def c10Ord : String → List EventNode :=
  fun _ => [{ ocel_id := "u1", timestamp := 0, activity_name := "A" },
            { ocel_id := "u2", timestamp := 2, activity_name := "B" },
            { ocel_id := "u3", timestamp := 5, activity_name := "C" }]

/-- C10 witness: the per-case out-degree and in-degree bounds instantiated on
a concrete three-event case. -/
theorem claim_C10_witness :
    (∀ n1 ∈ sequenceEdges (c10Ord "k"), ∀ n2 ∈ sequenceEdges (c10Ord "k"),
      n1.src = n2.src → n1 = n2) ∧
    (∀ n1 ∈ sequenceEdges (c10Ord "k"), ∀ n2 ∈ sequenceEdges (c10Ord "k"),
      n1.dst = n2.dst → n1 = n2) :=
  claim_C10_at_most_one_next 0 c10Log c10Ord c10G "k" rfl
    (by unfold ValidOrder; decide) (by decide)

/-! ### Claim C7 -/

def c7a : InputEvent :=
  { ocel_id := "e", ocel_timestamp := some 1, ocel_activity := "A",
    attr_case_id := none, attr_resource := none, ocel_objects := [] }

def c7b : InputEvent :=
  { ocel_id := "e", ocel_timestamp := some 2, ocel_activity := "B",
    attr_case_id := none, attr_resource := none, ocel_objects := [] }

/-- C7 counterexample: a two-event input whose events share the identifier
"e" produces a single Event node (MERGE updates instead of creating), so the
Event node count does not equal the number of input events. -/
theorem claim_C7_counterexample :
    [c7a, c7b].length = 2 ∧
    (runStages 0 [c7a, c7b] emptyGraph).toOption.map (fun g => g.events.length) =
      some 1 := by
  exact ⟨rfl, by decide⟩

/-- C7 (amended): for input logs whose event identifiers are pairwise
distinct, the pipeline produces exactly one Event node and exactly one
OF_TYPE edge per input event: both counts equal the input length. -/
theorem claim_C7_counts (now : Int) (log : List InputEvent) (gs : Graph)
    (hs : runStages now log emptyGraph = Except.ok gs)
    (hnd : (log.map InputEvent.ocel_id).Nodup) :
    gs.events.length = log.length ∧ gs.ofType.length = log.length := by
  have hgs := runStages_ok_inv now log emptyGraph gs hs
  subst hgs
  constructor
  · show (applyAll EventNode.ocel_id (log.map eventNodeOf) []).length = log.length
    rw [applyAll_nil_of_nodup EventNode.ocel_id _
      (by rw [mapkeys_eventNodeOf]; exact hnd)]
    exact List.length_map _ _
  · show (applyAll (fun p => p)
        ((activityRecordsIn now log emptyGraph).map
          (fun r => (r.id, r.activity, r.timestamp))) []).length = log.length
    rw [activityRecordsIn_all]
    rw [applyAll_nil_of_nodup (fun p => p) _ ?hnd]
    · rw [List.length_map, List.length_map]
    case hnd =>
      rw [keysOf_id]
      apply List.Nodup.of_map (Prod.fst : String × String × Int → String)
      rw [List.map_map, List.map_map]
      exact hnd

def c7wLog : List InputEvent :=
  [{ ocel_id := "w1", ocel_timestamp := some 1, ocel_activity := "A",
     attr_case_id := none, attr_resource := none, ocel_objects := [] },
   { ocel_id := "w2", ocel_timestamp := some 2, ocel_activity := "B",
     attr_case_id := none, attr_resource := none, ocel_objects := [] }]

def c7wG : Graph := (runStages 3 c7wLog emptyGraph).toOption.getD emptyGraph

/-- C7 witness: the amended counts on a concrete two-event log. -/
theorem claim_C7_witness :
    c7wG.events.length = c7wLog.length ∧ c7wG.ofType.length = c7wLog.length :=
  claim_C7_counts 3 c7wLog c7wG rfl (by decide)

/-! ### Claim C8 -/

/-- C8: an event whose attribute map lacks `case_id` (respectively `resource`)
causes no error: the run still succeeds, the Case (resp. Resource) stage
creates no CONTAINS_EVENT (resp. PERFORMED_BY) edge for that event, and the
Event, Activity and Object stages still process it. -/
theorem claim_C8_attr_skips (now : Int) (log : List InputEvent) (e : InputEvent)
    (hts : ∀ x ∈ log, x.ocel_timestamp.isSome = true) (he : e ∈ log)
    (hnd : (log.map InputEvent.ocel_id).Nodup) :
    runStages now log emptyGraph = Except.ok (stagesResult now log emptyGraph) ∧
    (e.attr_case_id = none →
      ∀ c, (c, e.ocel_id) ∉ (stagesResult now log emptyGraph).containsEvent) ∧
    (e.attr_resource = none →
      ∀ r, (e.ocel_id, r) ∉ (stagesResult now log emptyGraph).performedBy) ∧
    (∃ en ∈ (stagesResult now log emptyGraph).events, en.ocel_id = e.ocel_id) ∧
    (e.ocel_id, e.ocel_activity, e.ocel_timestamp.getD now) ∈
      (stagesResult now log emptyGraph).ofType ∧
    (∀ o ∈ e.ocel_objects, (e.ocel_id, o) ∈ (stagesResult now log emptyGraph).involves) := by
  refine ⟨runStages_ok_eq now log emptyGraph hts, ?_, ?_, ?_, ?_, ?_⟩
  · intro hcase c hmem
    rcases mem_of_mem_applyAll (fun p : String × String => p)
        ((caseRecordsIn log emptyGraph).map (fun r => (r.2, r.1))) [] _ hmem with h | h
    · cases h
    · rcases List.mem_map.1 h with ⟨r, hr, hpair⟩
      have hr2 : r ∈ caseRecords log := List.mem_of_mem_filter hr
      rcases List.mem_filterMap.1 hr2 with ⟨x, hx, hxr⟩
      rcases hattr : x.attr_case_id with _ | cid
      · rw [hattr] at hxr
        cases hxr
      · rw [hattr] at hxr
        have hre : r = (x.ocel_id, cid) := (Option.some.inj hxr).symm
        have hid : x.ocel_id = e.ocel_id := by
          rw [hre] at hpair
          exact congrArg Prod.snd hpair
        have hxe : x = e := eq_of_keys_eq_of_mem InputEvent.ocel_id log hnd x e hx he hid
        rw [hxe, hcase] at hattr
        cases hattr
  · intro hres r hmem
    rcases mem_of_mem_applyAll (fun p : String × String => p)
        ((resourceRecordsIn log emptyGraph).map (fun r => (r.1, r.2))) [] _ hmem with h | h
    · cases h
    · rcases List.mem_map.1 h with ⟨q, hq, hpair⟩
      have hq2 : q ∈ resourceRecords log := List.mem_of_mem_filter hq
      rcases List.mem_filterMap.1 hq2 with ⟨x, hx, hxr⟩
      rcases hattr : x.attr_resource with _ | rid
      · rw [hattr] at hxr
        cases hxr
      · rw [hattr] at hxr
        have hqe : q = (x.ocel_id, rid) := (Option.some.inj hxr).symm
        have hid : x.ocel_id = e.ocel_id := by
          rw [hqe] at hpair
          exact congrArg Prod.fst hpair
        have hxe : x = e := eq_of_keys_eq_of_mem InputEvent.ocel_id log hnd x e hx he hid
        rw [hxe, hres] at hattr
        cases hattr
  · have hkey : e.ocel_id ∈ keysOf EventNode.ocel_id
        (stagesResult now log emptyGraph).events :=
      mem_keysOf_applyAll_of_rec EventNode.ocel_id (log.map eventNodeOf) []
        (eventNodeOf e) (List.mem_map_of_mem _ he)
    rcases List.mem_map.1 hkey with ⟨en, hen, hid⟩
    exact ⟨en, hen, hid⟩
  · show (e.ocel_id, e.ocel_activity, e.ocel_timestamp.getD now) ∈
      applyAll (fun p => p)
        ((activityRecordsIn now log emptyGraph).map
          (fun r => (r.id, r.activity, r.timestamp))) []
    apply mem_applyAll_id
    right
    rw [activityRecordsIn_all, List.map_map]
    exact List.mem_map_of_mem _ he
  · intro o ho
    show (e.ocel_id, o) ∈ applyAll (fun p => p)
        ((objectRecordsIn log emptyGraph).map (fun r => (r.1, r.2))) []
    apply mem_applyAll_id
    right
    rw [objectRecordsIn_all]
    have hrec : (e.ocel_id, o) ∈ objectRecords log :=
      List.mem_flatMap.2 ⟨e, he, List.mem_map_of_mem _ ho⟩
    exact List.mem_map_of_mem _ hrec

def c8e1 : InputEvent :=
  { ocel_id := "z1", ocel_timestamp := some 1, ocel_activity := "A",
    attr_case_id := none, attr_resource := none,
    ocel_objects := [{ id := "ob", type := "T" }] }

def c8e2 : InputEvent :=
  { ocel_id := "z2", ocel_timestamp := some 2, ocel_activity := "B",
    attr_case_id := some "cc", attr_resource := some "rr", ocel_objects := [] }

def c8Log : List InputEvent := [c8e1, c8e2]

/-- C8 witness: the skip behaviour instantiated at a concrete event with both
attributes missing, alongside an event that has them. -/
theorem claim_C8_witness :
    runStages 0 c8Log emptyGraph = Except.ok (stagesResult 0 c8Log emptyGraph) ∧
    (c8e1.attr_case_id = none →
      ∀ c, (c, c8e1.ocel_id) ∉ (stagesResult 0 c8Log emptyGraph).containsEvent) ∧
    (c8e1.attr_resource = none →
      ∀ r, (c8e1.ocel_id, r) ∉ (stagesResult 0 c8Log emptyGraph).performedBy) ∧
    (∃ en ∈ (stagesResult 0 c8Log emptyGraph).events, en.ocel_id = c8e1.ocel_id) ∧
    (c8e1.ocel_id, c8e1.ocel_activity, c8e1.ocel_timestamp.getD 0) ∈
      (stagesResult 0 c8Log emptyGraph).ofType ∧
    (∀ o ∈ c8e1.ocel_objects,
      (c8e1.ocel_id, o) ∈ (stagesResult 0 c8Log emptyGraph).involves) :=
  claim_C8_attr_skips 0 c8Log c8e1 (by decide) (by decide) (by decide)

/-! ### Claim C4 -/

theorem sorted_perm_eq {β : Type} (f : β → Int) :
    ∀ (l1 l2 : List β), List.Perm l1 l2 →
      List.Pairwise (fun a b => f a ≤ f b) l1 →
      List.Pairwise (fun a b => f a ≤ f b) l2 →
      (∀ a ∈ l1, ∀ b ∈ l1, f a = f b → a = b) → l1 = l2 := by
  intro l1
  induction l1 with
  | nil =>
      intro l2 hperm _ _ _
      exact (List.perm_nil.1 hperm.symm).symm
  | cons a t1 ih =>
      intro l2 hperm hp1 hp2 hinj
      cases l2 with
      | nil => exact absurd (List.perm_nil.1 hperm) (by simp)
      | cons b t2 =>
          by_cases hab : a = b
          · subst hab
            have ht : List.Perm t1 t2 := hperm.cons_inv
            rw [ih t2 ht (List.pairwise_cons.1 hp1).2 (List.pairwise_cons.1 hp2).2
              (fun x hx y hy hf =>
                hinj x (List.mem_cons_of_mem _ hx) y (List.mem_cons_of_mem _ hy) hf)]
          · exfalso
            have hb1 : b ∈ a :: t1 := hperm.mem_iff.2 (List.mem_cons_self _ _)
            have hb1t : b ∈ t1 := by
              rcases List.mem_cons.1 hb1 with h | h
              · exact absurd h.symm hab
              · exact h
            have hfa : f a ≤ f b := (List.pairwise_cons.1 hp1).1 b hb1t
            have ha2 : a ∈ b :: t2 := hperm.mem_iff.1 (List.mem_cons_self _ _)
            have ha2t : a ∈ t2 := by
              rcases List.mem_cons.1 ha2 with h | h
              · exact absurd h hab
              · exact h
            have hfb : f b ≤ f a := (List.pairwise_cons.1 hp2).1 a ha2t
            exact hab (hinj a (List.mem_cons_self _ _) b (List.mem_cons_of_mem _ hb1t)
              (le_antisymm hfa hfb))

def c4G1 : Graph := (runPipeline 0 c2Ord1 c2Log emptyGraph).toOption.getD emptyGraph

def c4G2 : Graph := (runPipeline 0 c2Ord2 c2Log emptyGraph).toOption.getD emptyGraph

/-- C4 counterexample: the code's ORDER BY has no secondary sort key, so two
runs over the same input with two different — equally legal, timestamp-sorted —
row orders for a case with an equal-timestamp tie produce different NEXT_EVENT
edge sets. -/
theorem claim_C4_counterexample :
    runPipeline 0 c2Ord1 c2Log emptyGraph = Except.ok c4G1 ∧
    runPipeline 0 c2Ord2 c2Log emptyGraph = Except.ok c4G2 ∧
    ValidOrder c4G1 c2Ord1 ∧ ValidOrder c4G1 c2Ord2 ∧
    c4G1.nextEvent ≠ c4G2.nextEvent := by
  refine ⟨rfl, rfl, ?_, ?_, by decide⟩
  · unfold ValidOrder
    decide
  · unfold ValidOrder
    decide

/-- C4 (amended): the source sorts only by timestamp, with no deterministic
secondary key; when every case's events have pairwise distinct timestamps the
sorted order is unique, so any two legal row orders give the same NEXT_EVENT
edges — but with equal-timestamp ties the result is order-dependent. -/
theorem claim_C4_deterministic_when_distinct (g : Graph)
    (ord1 ord2 : String → List EventNode)
    (h1 : ValidOrder g ord1) (h2 : ValidOrder g ord2)
    (hinj : ∀ c ∈ g.cases, ∀ a ∈ caseEvents g c, ∀ b ∈ caseEvents g c,
      a.timestamp = b.timestamp → a = b) :
    applySequence g ord1 = applySequence g ord2 := by
  have hords : ∀ c ∈ g.cases, ord1 c = ord2 c := by
    intro c hc
    apply sorted_perm_eq EventNode.timestamp (ord1 c) (ord2 c)
    · exact ((h1 c hc).1).trans ((h2 c hc).1).symm
    · exact (h1 c hc).2
    · exact (h2 c hc).2
    · intro a ha b hb hf
      exact hinj c hc a ((h1 c hc).1.subset ha) b ((h1 c hc).1.subset hb) hf
  have hfold : ∀ (cs : List String), (∀ c ∈ cs, ord1 c = ord2 c) →
      ∀ acc : List NextEdge,
      List.foldl (fun acc c => applyAll nextKey (sequenceEdges (ord1 c)) acc) acc cs =
      List.foldl (fun acc c => applyAll nextKey (sequenceEdges (ord2 c)) acc) acc cs := by
    intro cs
    induction cs with
    | nil =>
        intro _ acc
        rfl
    | cons c cs ihc =>
        intro hcs acc
        rw [List.foldl_cons, List.foldl_cons, hcs c (List.mem_cons_self _ _)]
        exact ihc (fun x hx => hcs x (List.mem_cons_of_mem _ hx)) _
  apply graph_ext
  · rfl
  · rfl
  · rfl
  · rfl
  · rfl
  · rfl
  · rfl
  · rfl
  · rfl
  · exact hfold g.cases hords g.nextEvent

def c4wLog : List InputEvent :=
  [{ ocel_id := "v1", ocel_timestamp := some 1, ocel_activity := "A",
     attr_case_id := some "k", attr_resource := none, ocel_objects := [] },
   { ocel_id := "v2", ocel_timestamp := some 3, ocel_activity := "B",
     attr_case_id := some "k", attr_resource := none, ocel_objects := [] }]

def c4wG : Graph := (runStages 0 c4wLog emptyGraph).toOption.getD emptyGraph

def c4wOrd1 : String → List EventNode :=
  fun _ => [{ ocel_id := "v1", timestamp := 1, activity_name := "A" },
            { ocel_id := "v2", timestamp := 3, activity_name := "B" }]

def c4wOrd2 : String → List EventNode :=
  fun c => if c = "k" then
    [{ ocel_id := "v1", timestamp := 1, activity_name := "A" },
     { ocel_id := "v2", timestamp := 3, activity_name := "B" }]
  else []

/-- C4 witness: on a case with distinct timestamps, two legal row orders give
the same sequence result. -/
theorem claim_C4_witness :
    applySequence c4wG c4wOrd1 = applySequence c4wG c4wOrd2 :=
  claim_C4_deterministic_when_distinct c4wG c4wOrd1 c4wOrd2
    (by unfold ValidOrder; decide) (by unfold ValidOrder; decide) (by decide)

end OcelGraph
